import Mathlib

/-!
Verification of the obo_parser repository (src/obo_parser.py).

The Python module parses .obo-format stanza text into an ordered dictionary of
term records, derives the inverse "children" relation from the declared "is_a"
parent links, resolves the ontology root, and propagates top-level categories
through a breadth-first subtree traversal.

Shallow embedding conventions:
  * A Python dict value that is either a string or a list of strings becomes
    the sum type `Value`.
  * `collections.OrderedDict` and the per-term attribute dicts become
    association lists with in-place update (`setItem`), which preserves both
    key uniqueness and insertion order exactly as the Python dicts do.
  * Python exceptions become the `Except OboErr` monad.
  * The two unbounded loops of the source (`_compute_root_id`, and the
    breadth-first queue loops) are written with an explicit fuel argument;
    the wrappers supply a fuel that is proven sufficient whenever the Python
    loop terminates, so a `fuelOut` result models genuine divergence.
  * `logger.warn` calls are modeled by returning the list of warning messages
    alongside the mutated store.
-/

namespace OboSpec


/-- Value of one attribute of a term record: tags in ONLY_ONE_ALLOWED_PER_STANZA
are stored as plain strings, every other tag as a list of strings. -/
inductive Value where
  | single : String → Value
  | multi : List String → Value
deriving DecidableEq, Repr

/-- A term record: the Python per-term dict, as an association list from tag
name to value, in insertion order, with unique keys. -/
abbrev Record := List (String × Value)

/-- The record store: the Python OrderedDict from term id to record, as an
association list in insertion order, with unique keys. -/
abbrev OboStore := List (String × Record)

/-- Dictionary lookup `d.get(k)` / `d[k]` on an association list. -/
def pyGet {β : Type} : List (String × β) → String → Option β
  | [], _ => none
  | (k', v) :: rest, k => if k' = k then some v else pyGet rest k

/-- Dictionary membership test `k in d`. -/
def hasKey {β : Type} (l : List (String × β)) (k : String) : Bool :=
  (pyGet l k).isSome

/-- Dictionary assignment `d[k] = v`: replaces the value in place if the key
exists (keeping its position), otherwise appends the new entry; this is
exactly the OrderedDict / dict update semantics. -/
def setItem {β : Type} : List (String × β) → String → β → List (String × β)
  | [], k, v => [(k, v)]
  | (k', v') :: rest, k, v =>
      if k' = k then (k', v) :: rest else (k', v') :: setItem rest k v

/-- Keys of a store, in insertion order. -/
def keysOf {β : Type} (l : List (String × β)) : List String :=
  l.map Prod.fst

/-- Read an attribute expected to hold a list, defaulting to the empty list
when the attribute is absent; models `record.get(tag, [])` and the
defaultdict read `record[tag]` for a missing multi-valued tag.
The `.single` branch cannot arise for the multi-valued tags the source reads
this way on stores it builds; it returns `[]`, and theorems that quantify
over arbitrary stores carry a wellformedness hypothesis ruling it out. -/
def getMulti (r : Record) (tag : String) : List String :=
  match pyGet r tag with
  | some (.multi l) => l
  | _ => []

/-- Read an attribute expected to hold a string, with a default; models
`record.get(tag, d)` for single-valued tags. The `.multi` branch cannot
arise for the single-valued tags the source reads this way. -/
def getSingleD (r : Record) (tag : String) (d : String) : String :=
  match pyGet r tag with
  | some (.single s) => s
  | _ => d

/-- The ONLY_ONE_ALLOWED_PER_STANZA set of the source. -/
def ONLY_ONE_ALLOWED_PER_STANZA : List String := ["id", "name", "def", "comment"]

/-- Errors of the embedded operations. The source raises ValueError, KeyError
or TypeError; `fuelOut` marks exhaustion of the fuel of an embedded loop and
is proven unreachable whenever the Python loop terminates. -/
inductive OboErr where
  | unexpectedLineFormat (line : String)
  | duplicateTag (tag : String)
  | noCurrentRecord (tag : String)
  | idNotFound (label id : String)
  | fuelOut
deriving DecidableEq, Repr

/-! ### Line-level string operations

The Python line operations are embedded through `String.data`
(`String` is a structure holding a `List Char`), with each definition the
direct character-level meaning of the Python expression it models. -/

/-- Models `line.rstrip(chr(10))`: drop trailing newline characters. -/
def rstripNewline (s : String) : String :=
  ⟨(s.data.reverse.dropWhile (· = '\n')).reverse⟩

/-- Models `line.split(chr(33))[0]`: the text strictly before the first
exclamation mark (the whole string when there is none). -/
def stripComment (s : String) : String :=
  ⟨s.data.takeWhile (· ≠ '!')⟩

/-- Character class stripped by `line.strip("[]" + chr(10))`. -/
def isBracketChar (c : Char) : Bool :=
  c = '[' || c = ']' || c = '\n'

/-- Models `line.strip("[]" + chr(10))`: drop the bracket and newline
characters from both ends. -/
def stripBrackets (s : String) : String :=
  ⟨((s.data.dropWhile isBracketChar).reverse.dropWhile isBracketChar).reverse⟩

/-- Models `value.strip()`: drop whitespace from both ends. -/
def pyStrip (s : String) : String :=
  ⟨((s.data.dropWhile Char.isWhitespace).reverse.dropWhile Char.isWhitespace).reverse⟩

/-- Models `re.match("(?P<tag>[^:]+):(?P<value>[^!]+)", line)`: the tag is the
nonempty run of characters before the first colon, the value the nonempty run
of non-exclamation characters after it; `none` when the pattern does not
match a prefix of the line. -/
def matchTagValue (s : String) : Option (String × String) :=
  let tag := s.data.takeWhile (· ≠ ':')
  match s.data.dropWhile (· ≠ ':') with
  | [] => none
  | _ :: rest =>
      let value := rest.takeWhile (· ≠ '!')
      if tag.isEmpty ∨ value.isEmpty then none else some (⟨tag⟩, ⟨value⟩)

/-! ### The stanza parser -/

/-- Mutable state of the parsing loop in `parse_obo_format`: the store built
so far, the current stanza type, and the key under which the current record is
stored (the Python `current_record` variable is a reference to the record most
recently created by an id line, which is always the record stored under that
id value, so a key faithfully represents it). -/
structure ParseState where
  store : OboStore
  currentStanzaType : Option String
  currentKey : Option String
deriving DecidableEq, Repr

/-- Initial parser state. -/
def initParseState : ParseState :=
  { store := [], currentStanzaType := none, currentKey := none }

/-- One iteration of the `for line in lines` loop of `parse_obo_format`. -/
def parseLine (st : ParseState) (line : String) : Except OboErr ParseState :=
  if line.data.head? = some '[' then
    .ok { st with currentStanzaType := some (stripBrackets line) }
  else if st.currentStanzaType ≠ some "Term" then
    .ok st
  else
    let line := stripComment (rstripNewline line)
    if line.data.isEmpty then
      .ok st
    else
      match matchTagValue line with
      | none => .error (.unexpectedLineFormat line)
      | some (tag, rawValue) =>
        let value := pyStrip rawValue
        let store1 := if tag = "id" then setItem st.store value [] else st.store
        let key1 := if tag = "id" then some value else st.currentKey
        match key1 with
        | none => .error (.noCurrentRecord tag)
        | some k =>
          match pyGet store1 k with
          | none => .error (.noCurrentRecord tag)
          | some rec =>
            if tag ∈ ONLY_ONE_ALLOWED_PER_STANZA then
              if hasKey rec tag then
                .error (.duplicateTag tag)
              else
                .ok { store := setItem store1 k (setItem rec tag (.single value)),
                      currentStanzaType := st.currentStanzaType,
                      currentKey := some k }
            else
              .ok { store := setItem store1 k
                      (setItem rec tag (.multi (getMulti rec tag ++ [value]))),
                    currentStanzaType := st.currentStanzaType,
                    currentKey := some k }

/-- The line loop of `parse_obo_format`, before children derivation. -/
def parseStanzas (lines : List String) : Except OboErr ParseState :=
  lines.foldlM parseLine initParseState

/-! ### Children derivation -/

/-- The warning message logged for a dangling parent reference. -/
def danglingMsg (termId parentId : String) : String :=
  termId ++ " has a parent id " ++ parentId ++ " which is not in the ontology"

/-- One iteration of the inner `for parent_id in current_record["is_a"]` loop
of `_compute_children_column`: a missing parent id yields a warning and no
mutation, a present one gets `term_id` appended to its children list (created
empty first when absent). -/
def childrenStep (acc : OboStore × List String) (termId parentId : String) :
    OboStore × List String :=
  match pyGet acc.1 parentId with
  | none =>
      (acc.1, acc.2 ++ [danglingMsg termId parentId])
  | some parentRec =>
      (setItem acc.1 parentId
        (setItem parentRec "children" (.multi (getMulti parentRec "children" ++ [termId]))),
       acc.2)

/-- One iteration of the outer loop of `_compute_children_column`, processing
the record currently stored under `termId` (skipped when it has no is_a tag). -/
def childrenForRecord (acc : OboStore × List String) (termId : String) :
    OboStore × List String :=
  match pyGet acc.1 termId with
  | none => acc
  | some rec =>
      match pyGet rec "is_a" with
      | none => acc
      | some v =>
          (match v with
           | .multi parents => parents.foldl (fun a p => childrenStep a termId p) acc
           | .single _ => acc)

/-- Models `_compute_children_column`: walk the records in store order and
append each record id to the children list of each of its present parents,
collecting a warning per dangling parent reference. The keys are snapshotted
up front (the source iterates `items()`, and the loop never adds or removes
keys); each record is re-read from the current store, as the source reads the
live dict. -/
def computeChildrenColumn (store : OboStore) : OboStore × List String :=
  (keysOf store).foldl childrenForRecord (store, [])

/-- Models `parse_obo_format`: run the line loop, then derive children.
Warnings of the derivation are dropped here as the source only logs them. -/
def parse_obo_format (lines : List String) : Except OboErr OboStore :=
  (parseStanzas lines).map fun st => (computeChildrenColumn st.store).1

/-! ### Root resolution -/

/-- The while loop of `_compute_root_id`, walking first-parent links upward,
with explicit fuel. Each step validates that the first parent id is a key of
the store before moving to it. -/
def computeRootAux (store : OboStore) : Nat → String → Except OboErr (Option String)
  | 0, _ => .error .fuelOut
  | fuel + 1, termId =>
    match pyGet store termId with
    | none => .error (.idNotFound "key" termId)
    | some rec =>
      match pyGet rec "is_a" with
      | none => .ok (some termId)
      | some v =>
        match v with
        | .multi [] => .ok (some termId)
        | .multi (p :: _) =>
            if hasKey store p then computeRootAux store fuel p
            else .error (.idNotFound "parent id" p)
        | .single _ => .ok (some termId)

/-- Models `_compute_root_id`: `none` on an empty store, otherwise walk up
from the first key. The fuel `keys + 1` is always enough when the Python loop
terminates: the walk is a deterministic function of the current id, so any
walk longer than the number of keys revisits an id and the source loops
forever; `fuelOut` therefore models divergence on a cyclic is_a chain. -/
def computeRootId (store : OboStore) : Except OboErr (Option String) :=
  match keysOf store with
  | [] => .ok none
  | k :: _ => computeRootAux store ((keysOf store).length + 1) k

/-! ### Subtree traversal -/

/-- Evaluation of the optional skip predicate: `skip_record is not None and
skip_record(record)`. -/
def skipTest (skipRecord : Option (Record → Bool)) (rec : Record) : Bool :=
  match skipRecord with
  | some p => p rec
  | none => false

/-- The breadth-first loop of `get_substree` with explicit fuel: pop the front
id, look its record up (a missing id is the KeyError of the source), discard
already-processed or skipped ids without expanding, otherwise yield the id
and its record and enqueue its children. The source yields only the record;
the id is returned alongside to name what was yielded. -/
def getSubstreeAux (store : OboStore) (skipRecord : Option (Record → Bool)) :
    Nat → List String → List String → Except OboErr (List (String × Record))
  | 0, _, _ => .error .fuelOut
  | _ + 1, [], _ => .ok []
  | fuel + 1, nextId :: rest, processed =>
    match pyGet store nextId with
    | none => .error (.idNotFound "key" nextId)
    | some rec =>
      if nextId ∈ processed ∨ skipTest skipRecord rec then
        getSubstreeAux store skipRecord fuel rest processed
      else
        (getSubstreeAux store skipRecord fuel (rest ++ getMulti rec "children")
          (nextId :: processed)).map
          (fun tail => (nextId, rec) :: tail)

/-- Fuel charge of one store key: one pop for the key itself plus one future
pop per child id it enqueues when yielded. -/
def chargeOf (store : OboStore) (k : String) : Nat :=
  1 + (match pyGet store k with
       | some r => (getMulti r "children").length
       | none => 0)

/-- Measure of a traversal state: pending queue entries plus the charge of
every not-yet-processed key. Every step of the breadth-first loop strictly
decreases it, so it bounds the remaining loop iterations. -/
def subMeasure (store : OboStore) (queue processed : List String) : Nat :=
  queue.length +
    (((keysOf store).filter (fun k => decide (k ∉ processed))).map (chargeOf store)).sum

/-- Models `get_substree` as the list of (id, record) pairs the generator
yields, in order. The breadth-first loop always terminates (each pop either
consumes a queue entry or marks a key processed), and the supplied fuel
exceeds the step measure, so `fuelOut` is unreachable. -/
def get_substree (store : OboStore) (rootId : String)
    (skipRecord : Option (Record → Bool)) :
    Except OboErr (List (String × Record)) :=
  if hasKey store rootId then
    getSubstreeAux store skipRecord (subMeasure store [rootId] [] + 1) [rootId] []
  else
    .error (.idNotFound "root_id" rootId)

/-! ### Category propagation -/

/-- The skip predicate `is_category_already_assigned` of
`compute_category_column`. -/
def isCategoryAlreadyAssigned (rec : Record) : Bool :=
  hasKey rec "category_id" || hasKey rec "category_name"

/-- Stamp one yielded record per the two column flags. -/
def stampRecord (rec : Record) (categoryId categoryName : String)
    (addId addName : Bool) : Record :=
  let rec1 := if addId then setItem rec "category_id" (.single categoryId) else rec
  if addName then setItem rec1 "category_name" (.single categoryName) else rec1

/-- The consumption of one category subtree in `compute_category_column`:
the same breadth-first loop as `get_substree`, with the stamping of each
yielded record interleaved exactly as the source interleaves the generator
with the mutating for-loop body (the skip predicate reads the live record). -/
def stampSubtreeAux (categoryId categoryName : String) (addId addName : Bool) :
    Nat → OboStore → List String → List String → Except OboErr OboStore
  | 0, _, _, _ => .error .fuelOut
  | _ + 1, store, [], _ => .ok store
  | fuel + 1, store, nextId :: rest, processed =>
    match pyGet store nextId with
    | none => .error (.idNotFound "key" nextId)
    | some rec =>
      if nextId ∈ processed ∨ isCategoryAlreadyAssigned rec then
        stampSubtreeAux categoryId categoryName addId addName fuel store rest processed
      else
        stampSubtreeAux categoryId categoryName addId addName fuel
          (setItem store nextId (stampRecord rec categoryId categoryName addId addName))
          (rest ++ getMulti rec "children") (nextId :: processed)

/-- One iteration of the `for category_id in root_child_ids` loop of
`compute_category_column`: read the category name (a missing category id is
the KeyError of the source), then traverse and stamp its subtree. -/
def stampCategory (addId addName : Bool) (store : OboStore) (categoryId : String) :
    Except OboErr OboStore :=
  match pyGet store categoryId with
  | none => .error (.idNotFound "key" categoryId)
  | some catRec =>
      if hasKey store categoryId then
        stampSubtreeAux categoryId (getSingleD catRec "name" "") addId addName
          (subMeasure store [categoryId] [] + 1) store [categoryId] []
      else .error (.idNotFound "root_id" categoryId)

/-- Models `compute_category_column`: validate the root id, read its children
list, warn and return unchanged when it is empty, otherwise stamp the subtree
of each direct child of the root in order. Returns the mutated store together
with the warnings logged. -/
def computeCategoryColumn (store : OboStore) (rootId : String)
    (addId : Bool) (addName : Bool) :
    Except OboErr (OboStore × List String) :=
  match pyGet store rootId with
  | none => .error (.idNotFound "root_id" rootId)
  | some rootRec =>
      let rootChildIds := getMulti rootRec "children"
      if rootChildIds.isEmpty then
        .ok (store, ["root term has no child terms"])
      else
        (rootChildIds.foldlM (stampCategory addId addName) store).map (fun s => (s, []))

/-! ### The id-matches-key invariant (claim C7) -/

/-- Every record of the store has an id attribute equal to its store key. -/
def IdMatchesKey (store : OboStore) : Prop :=
  ∀ k r, pyGet store k = some r → pyGet r "id" = some (.single k)

/-! ### Characterization of children derivation (claims C3 and C8) -/

/-- The parent ids the children loop iterates for a given key: the is_a list
of its record, empty when the key or the tag is absent. -/
def parentsOf (store : OboStore) (t : String) : List String :=
  match pyGet store t with
  | none => []
  | some r =>
      match pyGet r "is_a" with
      | some (.multi ps) => ps
      | _ => []

/-- Reference definition following the spec: the derived children of `p` are
the ids of the records whose is_a list contains `p`, in store order, one
entry per is_a occurrence. -/
def derivedChildren (store : OboStore) (p : String) : List String :=
  (keysOf store).flatMap fun t =>
    ((parentsOf store t).filter (fun q => decide (q = p))).map fun _ => t

/-- Reference definition of the warnings: one message per dangling parent
reference, in store order and is_a order. -/
def danglingWarnings (store : OboStore) : List String :=
  (keysOf store).flatMap fun t =>
    ((parentsOf store t).filter (fun p => !(hasKey store p))).map (danglingMsg t)

/-- How a sequence of child appends transforms the children attribute of a
record: appended to an existing list, creating the attribute only when at
least one append happens. -/
def combineChildren : Option Value → List String → Option Value
  | some (.multi l), d => some (.multi (l ++ d))
  | none, d => if d = [] then none else some (.multi d)
  | some (.single s), d => if d = [] then some (.single s) else some (.multi d)

/-! ### Reachability along children links -/

/-- One children link: `b` is listed in the children attribute of the record
stored under `a`. -/
def childEdge (store : OboStore) (a b : String) : Prop :=
  ∃ r, pyGet store a = some r ∧ b ∈ getMulti r "children"

/-- Reachability along children links. -/
def ChildReach (store : OboStore) (a b : String) : Prop :=
  Relation.ReflTransGen (childEdge store) a b

/-- Acyclicity witnessed by a rank function that strictly decreases along
every children link. -/
def RankedAcyclic (store : OboStore) (rank : String → Nat) : Prop :=
  ∀ k r, pyGet store k = some r → ∀ c ∈ getMulti r "children", rank c < rank k

/-- The direct children of the designated root record. -/
def rootChildrenOf (store : OboStore) (rootId : String) : List String :=
  match pyGet store rootId with
  | some r => getMulti r "children"
  | none => []

/-! ### Specification of the subtree traversal (claim C2) -/

/-- The id names a record that the skip predicate does not reject. -/
def notSkipped (store : OboStore) (skipRecord : Option (Record → Bool)) (a : String) : Prop :=
  ∃ r, pyGet store a = some r ∧ skipTest skipRecord r = false

/-- A children link whose source record is present and not skipped. -/
def nsEdge (store : OboStore) (skipRecord : Option (Record → Bool)) (a b : String) : Prop :=
  childEdge store a b ∧ notSkipped store skipRecord a

/-- Every children entry of every record is a key of the store. -/
def ChildrenClosed (store : OboStore) : Prop :=
  ∀ k r, pyGet store k = some r → ∀ c ∈ getMulti r "children", c ∈ keysOf store

/-- One breadth-first layer, following the words of the spec: walk the
frontier in order, drop already-visited or skipped ids, and collect the
yields and the concatenation of the children of the yielded records as the
next frontier. -/
def processLayer (store : OboStore) (skipRecord : Option (Record → Bool)) :
    List String → List String →
      Except OboErr (List (String × Record) × List String × List String)
  | [], v => .ok ([], [], v)
  | x :: xs, v =>
    match pyGet store x with
    | none => .error (.idNotFound "key" x)
    | some rec =>
      if x ∈ v ∨ skipTest skipRecord rec then processLayer store skipRecord xs v
      else
        (processLayer store skipRecord xs (x :: v)).map
          (fun yl => ((x, rec) :: yl.1, getMulti rec "children" ++ yl.2.1, yl.2.2))

/-- Reference definition following the spec: breadth-first traversal layer by
layer, first-seen order among siblings. -/
def bfsLayers (store : OboStore) (skipRecord : Option (Record → Bool)) :
    Nat → List String → List String → Except OboErr (List (String × Record))
  | 0, _, _ => .error .fuelOut
  | _ + 1, [], _ => .ok []
  | fuel + 1, frontier, v =>
    (processLayer store skipRecord frontier v).bind
      (fun yl => (bfsLayers store skipRecord fuel yl.2.1 yl.2.2).map (fun rest => yl.1 ++ rest))

/-- Reference wrapper following the spec, comparable with `get_substree`. -/
def bfsSpecTraversal (store : OboStore) (rootId : String)
    (skipRecord : Option (Record → Bool)) :
    Except OboErr (List (String × Record)) :=
  if hasKey store rootId then
    bfsLayers store skipRecord (subMeasure store [rootId] [] + 1) [rootId] []
  else
    .error (.idNotFound "root_id" rootId)

/-- Concrete three-node chain used to settle claim C2: rA has child rB, rB is
marked with a flag and has child rC. -/
def storeC2 : OboStore :=
  [("rA", [("id", Value.single "rA"), ("children", Value.multi ["rB"])]),
   ("rB", [("id", Value.single "rB"), ("flag", Value.multi ["yes"]),
           ("is_a", Value.multi ["rA"]), ("children", Value.multi ["rC"])]),
   ("rC", [("id", Value.single "rC"), ("is_a", Value.multi ["rB"])])]

/-- The skip predicate of the C2 counterexample: skip records carrying a
flag attribute. -/
def skipC2 (rec : Record) : Bool := hasKey rec "flag"

/-- Concrete diamond ontology used for claim C4: root A with children B and
C, and D below both B and C. -/
def storeC4 : OboStore :=
  [("A", [("id", Value.single "A"), ("name", Value.single "nA"),
          ("children", Value.multi ["B", "C"])]),
   ("B", [("id", Value.single "B"), ("name", Value.single "nB"),
          ("is_a", Value.multi ["A"]), ("children", Value.multi ["D"])]),
   ("C", [("id", Value.single "C"), ("name", Value.single "nC"),
          ("is_a", Value.multi ["A"]), ("children", Value.multi ["D"])]),
   ("D", [("id", Value.single "D"), ("name", Value.single "nD"),
          ("is_a", Value.multi ["B", "C"])])]

/-- The C4 diamond after one run of category propagation from A. -/
def storeC4stamped : OboStore :=
  [("A", [("id", Value.single "A"), ("name", Value.single "nA"),
          ("children", Value.multi ["B", "C"])]),
   ("B", [("id", Value.single "B"), ("name", Value.single "nB"),
          ("is_a", Value.multi ["A"]), ("children", Value.multi ["D"]),
          ("category_id", Value.single "B"), ("category_name", Value.single "nB")]),
   ("C", [("id", Value.single "C"), ("name", Value.single "nC"),
          ("is_a", Value.multi ["A"]), ("children", Value.multi ["D"]),
          ("category_id", Value.single "C"), ("category_name", Value.single "nC")]),
   ("D", [("id", Value.single "D"), ("name", Value.single "nD"),
          ("is_a", Value.multi ["B", "C"]),
          ("category_id", Value.single "B"), ("category_name", Value.single "nB")])]

/-- Readable accessor for a record's category id, empty when absent. -/
def categoryIdOf (store : OboStore) (k : String) : String :=
  match pyGet store k with
  | some r => getSingleD r "category_id" ""
  | none => ""

/-- Input lines of the claim C5 example ontology. -/
def linesC5 : List String :=
  ["[Term]", "id: A", "name: nA",
   "[Term]", "id: B", "name: nB", "is_a: A",
   "[Term]", "id: C", "name: nC", "is_a: A",
   "[Term]", "id: D", "name: nD", "is_a: B", "is_a: C"]

/-- The parsed C5 example store. -/
def storeC5 : OboStore :=
  [("A", [("id", Value.single "A"), ("name", Value.single "nA"),
          ("children", Value.multi ["B", "C"])]),
   ("B", [("id", Value.single "B"), ("name", Value.single "nB"),
          ("is_a", Value.multi ["A"]), ("children", Value.multi ["D"])]),
   ("C", [("id", Value.single "C"), ("name", Value.single "nC"),
          ("is_a", Value.multi ["A"]), ("children", Value.multi ["D"])]),
   ("D", [("id", Value.single "D"), ("name", Value.single "nD"),
          ("is_a", Value.multi ["B", "C"])])]

/-- The C5 example store midway: category B has been processed, so B and D
carry the stamp of B, and C is still unstamped. -/
def storeC5mid : OboStore :=
  [("A", [("id", Value.single "A"), ("name", Value.single "nA"),
          ("children", Value.multi ["B", "C"])]),
   ("B", [("id", Value.single "B"), ("name", Value.single "nB"),
          ("is_a", Value.multi ["A"]), ("children", Value.multi ["D"]),
          ("category_id", Value.single "B"), ("category_name", Value.single "nB")]),
   ("C", [("id", Value.single "C"), ("name", Value.single "nC"),
          ("is_a", Value.multi ["A"]), ("children", Value.multi ["D"])]),
   ("D", [("id", Value.single "D"), ("name", Value.single "nD"),
          ("is_a", Value.multi ["B", "C"]),
          ("category_id", Value.single "B"), ("category_name", Value.single "nB")])]

/-- The C5 example store after the full run. -/
def storeC5stamped : OboStore :=
  [("A", [("id", Value.single "A"), ("name", Value.single "nA"),
          ("children", Value.multi ["B", "C"])]),
   ("B", [("id", Value.single "B"), ("name", Value.single "nB"),
          ("is_a", Value.multi ["A"]), ("children", Value.multi ["D"]),
          ("category_id", Value.single "B"), ("category_name", Value.single "nB")]),
   ("C", [("id", Value.single "C"), ("name", Value.single "nC"),
          ("is_a", Value.multi ["A"]), ("children", Value.multi ["D"]),
          ("category_id", Value.single "C"), ("category_name", Value.single "nC")]),
   ("D", [("id", Value.single "D"), ("name", Value.single "nD"),
          ("is_a", Value.multi ["B", "C"]),
          ("category_id", Value.single "B"), ("category_name", Value.single "nB")])]

/-- Rank function witnessing acyclicity of the diamond example. -/
def rankC10 (s : String) : Nat :=
  if s = "A" then 2 else if s = "D" then 0 else 1

/-- Pre-derivation store of the claim C3 counterexample: the record A carries
a literal children tag from the input. -/
def storeC3pre : OboStore :=
  [("A", [("id", Value.single "A"), ("children", Value.multi ["Q"])]),
   ("B", [("id", Value.single "B"), ("is_a", Value.multi ["A"])])]

/-- Pre-derivation diamond store with no children attributes. -/
def storeC3plain : OboStore :=
  [("A", [("id", Value.single "A"), ("name", Value.single "nA")]),
   ("B", [("id", Value.single "B"), ("name", Value.single "nB"),
          ("is_a", Value.multi ["A"])]),
   ("C", [("id", Value.single "C"), ("name", Value.single "nC"),
          ("is_a", Value.multi ["A"])]),
   ("D", [("id", Value.single "D"), ("name", Value.single "nD"),
          ("is_a", Value.multi ["B", "C"])])]

/-- Store of the claim C8 witness: X declares a parent Ghost that is not in
the store, and Y declares the present parent X. -/
def storeC8 : OboStore :=
  [("X", [("id", Value.single "X"), ("is_a", Value.multi ["Ghost"])]),
   ("Y", [("id", Value.single "Y"), ("is_a", Value.multi ["X"])])]

/-! ### Root resolution (claim C6) -/

/-- The step of the root walk: the first entry of the is_a list of the record
stored under `a`, when the record and a first parent exist. -/
def firstParentOf (store : OboStore) (a : String) : Option String :=
  match pyGet store a with
  | none => none
  | some r =>
      match pyGet r "is_a" with
      | some (.multi (p :: _)) => some p
      | _ => none

/-- Input lines of the claim C6 example ontology. -/
def linesC6 : List String :=
  ["[Term]", "id: X", "is_a: Y", "[Term]", "id: Y", "is_a: Z", "[Term]", "id: Z"]

/-- The parsed claim C6 example store. -/
def storeC6 : OboStore :=
  [("X", [("id", Value.single "X"), ("is_a", Value.multi ["Y"])]),
   ("Y", [("id", Value.single "Y"), ("is_a", Value.multi ["Z"]),
          ("children", Value.multi ["X"])]),
   ("Z", [("id", Value.single "Z"), ("children", Value.multi ["Y"])])]

/-! ### Basic lemmas about the dictionary operations -/

theorem pyGet_setItem_self {β : Type} (l : List (String × β)) (k : String) (v : β) :
    pyGet (setItem l k v) k = some v := by
  induction l with
  | nil => simp [setItem, pyGet]
  | cons hd tl ih =>
      obtain ⟨k', v'⟩ := hd
      by_cases hk : k' = k
      · subst hk; simp [setItem, pyGet]
      · simp [setItem, pyGet, hk, ih]

theorem pyGet_setItem_ne {β : Type} (l : List (String × β)) {k k' : String} (v : β)
    (h : k ≠ k') : pyGet (setItem l k v) k' = pyGet l k' := by
  induction l with
  | nil => simp [setItem, pyGet, h]
  | cons hd tl ih =>
      obtain ⟨k0, v0⟩ := hd
      by_cases hk : k0 = k
      · subst hk; simp [setItem, pyGet, h]
      · simp [setItem, pyGet, hk, ih]

theorem hasKey_iff_mem_keysOf {β : Type} (l : List (String × β)) (k : String) :
    hasKey l k = true ↔ k ∈ keysOf l := by
  induction l with
  | nil => simp [hasKey, pyGet, keysOf]
  | cons hd tl ih =>
      obtain ⟨k0, v0⟩ := hd
      by_cases hk : k0 = k
      · subst hk; simp [hasKey, pyGet, keysOf]
      · simp only [hasKey, pyGet, hk, if_false, keysOf, List.map_cons, List.mem_cons]
        simp only [hasKey, keysOf] at ih
        constructor
        · intro h; exact Or.inr (ih.1 h)
        · rintro (h | h)
          · exact absurd h.symm hk
          · exact ih.2 h

theorem pyGet_isSome_iff_mem_keysOf {β : Type} (l : List (String × β)) (k : String) :
    (pyGet l k).isSome = true ↔ k ∈ keysOf l :=
  hasKey_iff_mem_keysOf l k

theorem pyGet_eq_none_of_not_mem {β : Type} {l : List (String × β)} {k : String}
    (h : k ∉ keysOf l) : pyGet l k = none := by
  cases hg : pyGet l k with
  | none => rfl
  | some v =>
      exact absurd ((pyGet_isSome_iff_mem_keysOf l k).1 (by simp [hg])) h

theorem mem_keysOf_of_pyGet {β : Type} {l : List (String × β)} {k : String} {v : β}
    (h : pyGet l k = some v) : k ∈ keysOf l :=
  (pyGet_isSome_iff_mem_keysOf l k).1 (by simp [h])

theorem keysOf_setItem_of_mem {β : Type} {l : List (String × β)} {k : String} (v : β)
    (h : k ∈ keysOf l) : keysOf (setItem l k v) = keysOf l := by
  induction l with
  | nil => simp [keysOf] at h
  | cons hd tl ih =>
      obtain ⟨k0, v0⟩ := hd
      by_cases hk : k0 = k
      · subst hk; simp [setItem, keysOf]
      · simp only [keysOf, List.map_cons, List.mem_cons] at h
        rcases h with h | h
        · exact absurd h.symm hk
        · have htl := ih h
          simp only [keysOf] at htl
          simp [setItem, keysOf, hk, htl]

theorem setItem_setItem {β : Type} (l : List (String × β)) (k : String) (v v' : β) :
    setItem (setItem l k v) k v' = setItem l k v' := by
  induction l with
  | nil => simp [setItem]
  | cons hd tl ih =>
      obtain ⟨k0, v0⟩ := hd
      by_cases hk : k0 = k
      · subst hk; simp [setItem]
      · simp [setItem, hk, ih]

theorem setItem_eq_self {β : Type} {l : List (String × β)} {k : String} {v : β}
    (h : pyGet l k = some v) : setItem l k v = l := by
  induction l with
  | nil => simp [pyGet] at h
  | cons hd tl ih =>
      obtain ⟨k0, v0⟩ := hd
      by_cases hk : k0 = k
      · subst hk
        have hv : v0 = v := by simpa [pyGet] using h
        subst hv
        simp [setItem]
      · simp only [pyGet, hk, if_false] at h
        simp [setItem, hk, ih h]

theorem getMulti_setItem_ne (r : Record) {tag tag' : String} (v : Value)
    (h : tag ≠ tag') : getMulti (setItem r tag v) tag' = getMulti r tag' := by
  simp [getMulti, pyGet_setItem_ne r v h]

theorem hasKey_setItem_self {β : Type} (l : List (String × β)) (k : String) (v : β) :
    hasKey (setItem l k v) k = true := by
  simp [hasKey, pyGet_setItem_self]

theorem hasKey_setItem_ne {β : Type} (l : List (String × β)) {k k' : String} (v : β)
    (h : k ≠ k') : hasKey (setItem l k v) k' = hasKey l k' := by
  simp [hasKey, pyGet_setItem_ne l v h]

theorem idkey_setItem {store : OboStore} {k : String} {rec rec' : Record}
    (hinv : IdMatchesKey store) (hrec : pyGet store k = some rec)
    (hid : pyGet rec' "id" = pyGet rec "id") : IdMatchesKey (setItem store k rec') := by
  intro k' r' hget
  by_cases hk : k = k'
  · subst hk
    rw [pyGet_setItem_self] at hget
    cases hget
    rw [hid]
    exact hinv _ _ hrec
  · rw [pyGet_setItem_ne _ _ hk] at hget
    exact hinv _ _ hget

theorem idkey_setItem_fresh {store : OboStore} (hinv : IdMatchesKey store) (v : String) :
    IdMatchesKey (setItem store v [("id", Value.single v)]) := by
  intro k' r' hget
  by_cases hk : v = k'
  · subst hk
    rw [pyGet_setItem_self] at hget
    cases hget
    simp [pyGet]
  · rw [pyGet_setItem_ne _ _ hk] at hget
    exact hinv _ _ hget

theorem not_only_one_ne_id {tag : String} (h : tag ∉ ONLY_ONE_ALLOWED_PER_STANZA) :
    tag ≠ "id" := by
  intro heq
  subst heq
  exact h (by simp [ONLY_ONE_ALLOWED_PER_STANZA])

theorem parseLine_preserves_idkey {st st' : ParseState} {line : String}
    (h : parseLine st line = .ok st') (hinv : IdMatchesKey st.store) :
    IdMatchesKey st'.store := by
  unfold parseLine at h
  simp only [] at h
  split at h
  · simp only [Except.ok.injEq] at h
    subst h
    exact hinv
  · split at h
    · simp only [Except.ok.injEq] at h
      subst h
      exact hinv
    · split at h
      · simp only [Except.ok.injEq] at h
        subst h
        exact hinv
      · split at h
        · exact absurd h (by simp)
        · rename_i tagval tag rawValue heqmatch
          by_cases htag : tag = "id"
          · subst htag
            simp only [if_true] at h
            rw [pyGet_setItem_self] at h
            simp only [show ("id" ∈ ONLY_ONE_ALLOWED_PER_STANZA) = True by simp
                [ONLY_ONE_ALLOWED_PER_STANZA],
              show hasKey ([] : Record) "id" = false from rfl, if_true,
              Bool.false_eq_true, if_false, Except.ok.injEq] at h
            subst h
            simp only [setItem_setItem]
            exact idkey_setItem_fresh hinv _
          · simp only [if_neg htag] at h
            split at h
            · exact absurd h (by simp)
            · rename_i k hkey
              split at h
              · exact absurd h (by simp)
              · rename_i rec hrec
                split at h
                · split at h
                  · exact absurd h (by simp)
                  · simp only [Except.ok.injEq] at h
                    subst h
                    exact idkey_setItem hinv hrec
                      (by rw [pyGet_setItem_ne _ _ (Ne.symm (by exact fun hx => htag hx.symm))])
                · simp only [Except.ok.injEq] at h
                  subst h
                  exact idkey_setItem hinv hrec
                    (by rw [pyGet_setItem_ne _ _ (Ne.symm (by exact fun hx => htag hx.symm))])

theorem combineChildren_nil (old : Option Value) : combineChildren old [] = old := by
  rcases old with _ | v
  · rfl
  · rcases v with s | l <;> simp [combineChildren]

theorem combineChildren_append (old : Option Value) (d1 d2 : List String) :
    combineChildren old (d1 ++ d2) = combineChildren (combineChildren old d1) d2 := by
  rcases old with _ | v
  · rcases d1 with _ | ⟨x, xs⟩
    · simp [combineChildren]
    · simp [combineChildren]
  · rcases v with s | l
    · rcases d1 with _ | ⟨x, xs⟩
      · simp [combineChildren]
      · simp [combineChildren]
    · simp [combineChildren]

/-- Unfolding of `childrenForRecord` as the inner fold over `parentsOf`. -/
theorem childrenForRecord_eq (acc : OboStore × List String) (termId : String) :
    childrenForRecord acc termId =
      (parentsOf acc.1 termId).foldl (fun a p => childrenStep a termId p) acc := by
  unfold childrenForRecord parentsOf
  cases hg : pyGet acc.1 termId with
  | none => rfl
  | some rec =>
      cases hv : pyGet rec "is_a" with
      | none => simp [hv]
      | some v => cases v <;> simp [hv]

theorem childrenStep_keys (acc : OboStore × List String) (t p : String) :
    keysOf (childrenStep acc t p).1 = keysOf acc.1 := by
  unfold childrenStep
  cases hg : pyGet acc.1 p with
  | none => rfl
  | some parentRec =>
      exact keysOf_setItem_of_mem _ (mem_keysOf_of_pyGet hg)

theorem childrenStep_frame (acc : OboStore × List String) (t p : String)
    {k : String} {r' : Record} (h : pyGet (childrenStep acc t p).1 k = some r') :
    ∃ r, pyGet acc.1 k = some r ∧ (∀ s, s ≠ "children" → pyGet r' s = pyGet r s) ∧
      pyGet r' "children" =
        combineChildren (pyGet r "children") (if p = k then [t] else []) := by
  unfold childrenStep at h
  cases hg : pyGet acc.1 p with
  | none =>
      rw [hg] at h
      simp only [] at h
      have hpk : p ≠ k := by
        intro hpk
        subst hpk
        rw [hg] at h
        exact Option.noConfusion h
      refine ⟨r', h, fun s _ => rfl, ?_⟩
      rw [if_neg hpk, combineChildren_nil]
  | some parentRec =>
      rw [hg] at h
      simp only [] at h
      by_cases hpk : p = k
      · subst hpk
        rw [pyGet_setItem_self] at h
        injection h with h
        subst h
        refine ⟨parentRec, hg, fun s hs => pyGet_setItem_ne _ _ (Ne.symm hs), ?_⟩
        rw [if_pos rfl, pyGet_setItem_self]
        cases hc : pyGet parentRec "children" with
        | none => simp [getMulti, hc, combineChildren]
        | some v => cases v <;> simp [getMulti, hc, combineChildren]
      · rw [pyGet_setItem_ne _ _ hpk] at h
        exact ⟨r', h, fun s _ => rfl, by rw [if_neg hpk, combineChildren_nil]⟩

theorem childrenStep_warnings (acc : OboStore × List String) (t p : String) :
    (childrenStep acc t p).2 =
      acc.2 ++ (if hasKey acc.1 p then [] else [danglingMsg t p]) := by
  unfold childrenStep
  cases hg : pyGet acc.1 p with
  | none => simp [hasKey, hg]
  | some parentRec => simp [hasKey, hg]

theorem hasKey_congr {β γ : Type} {l : List (String × β)} {l' : List (String × γ)}
    (h : keysOf l = keysOf l') (k : String) : hasKey l k = hasKey l' k := by
  have h1 := hasKey_iff_mem_keysOf l k
  have h2 := hasKey_iff_mem_keysOf l' k
  rw [h] at h1
  cases hb : hasKey l k
  · cases hb' : hasKey l' k
    · rfl
    · exact absurd (h1.2 (h2.1 hb')) (by simp [hb])
  · rw [h2.2 (h1.1 hb)]

/-- The inner parent loop, relative to an arbitrary starting accumulator:
keys are unchanged, one warning is appended per dangling parent in order, and
the children attribute of each key receives one append of `t` per occurrence
of the key in the parent list, all other attributes untouched. -/
theorem childrenInnerFold (t : String) (ps : List String) (acc : OboStore × List String) :
    keysOf (ps.foldl (fun a p => childrenStep a t p) acc).1 = keysOf acc.1 ∧
    (ps.foldl (fun a p => childrenStep a t p) acc).2 =
      acc.2 ++ (ps.filter (fun p => !(hasKey acc.1 p))).map (danglingMsg t) ∧
    ∀ k r', pyGet (ps.foldl (fun a p => childrenStep a t p) acc).1 k = some r' →
      ∃ r, pyGet acc.1 k = some r ∧
        (∀ s, s ≠ "children" → pyGet r' s = pyGet r s) ∧
        pyGet r' "children" = combineChildren (pyGet r "children")
          ((ps.filter (fun q => decide (q = k))).map (fun _ => t)) := by
  induction ps generalizing acc with
  | nil =>
      refine ⟨rfl, by simp, fun k r' h => ⟨r', h, fun s _ => rfl, ?_⟩⟩
      simp [combineChildren_nil]
  | cons p ps ih =>
      obtain ⟨ihkeys, ihwarn, ihrec⟩ := ih (childrenStep acc t p)
      rw [List.foldl_cons]
      refine ⟨by rw [ihkeys, childrenStep_keys], ?_, ?_⟩
      · rw [ihwarn, childrenStep_warnings]
        have hkc : ∀ q, hasKey (childrenStep acc t p).1 q = hasKey acc.1 q :=
          fun q => hasKey_congr (childrenStep_keys acc t p) q
        simp only [hkc, List.filter_cons]
        cases hb : hasKey acc.1 p
        · simp [List.append_assoc]
        · simp
      · intro k r' h
        obtain ⟨r1, hr1, hframe1, hchild1⟩ := ihrec k r' h
        obtain ⟨r0, hr0, hframe0, hchild0⟩ := childrenStep_frame acc t p hr1
        refine ⟨r0, hr0, fun s hs => (hframe1 s hs).trans (hframe0 s hs), ?_⟩
        rw [hchild1, hchild0, ← combineChildren_append]
        congr 1
        simp only [List.filter_cons]
        by_cases hpk : p = k
        · simp [hpk]
        · simp [hpk]

/-- Stability of `parentsOf` under the frame of the children loop. -/
theorem parentsOf_congr {st st' : OboStore} (hkeys : keysOf st' = keysOf st)
    (hframe : ∀ k r', pyGet st' k = some r' →
      ∃ r, pyGet st k = some r ∧ pyGet r' "is_a" = pyGet r "is_a") (u : String) :
    parentsOf st' u = parentsOf st u := by
  unfold parentsOf
  cases hg : pyGet st' u with
  | none =>
      have : pyGet st u = none := by
        apply pyGet_eq_none_of_not_mem
        intro hmem
        rw [← hkeys] at hmem
        rw [← pyGet_isSome_iff_mem_keysOf] at hmem
        simp [hg] at hmem
      rw [this]
  | some r' =>
      obtain ⟨r, hr, hisa⟩ := hframe u r' hg
      rw [hr]
      simp only []
      rw [hisa]

/-- The outer record loop of children derivation, relative to an arbitrary
starting accumulator. -/
theorem childrenOuterFold (ks : List String) (acc : OboStore × List String) :
    keysOf (ks.foldl childrenForRecord acc).1 = keysOf acc.1 ∧
    (ks.foldl childrenForRecord acc).2 =
      acc.2 ++ ks.flatMap (fun u =>
        ((parentsOf acc.1 u).filter (fun p => !(hasKey acc.1 p))).map (danglingMsg u)) ∧
    ∀ k r', pyGet (ks.foldl childrenForRecord acc).1 k = some r' →
      ∃ r, pyGet acc.1 k = some r ∧
        (∀ s, s ≠ "children" → pyGet r' s = pyGet r s) ∧
        pyGet r' "children" = combineChildren (pyGet r "children")
          (ks.flatMap fun u =>
            ((parentsOf acc.1 u).filter (fun q => decide (q = k))).map (fun _ => u)) := by
  induction ks generalizing acc with
  | nil =>
      refine ⟨rfl, by simp, fun k r' h => ⟨r', h, fun s _ => rfl, ?_⟩⟩
      simp [combineChildren_nil]
  | cons u ks ih =>
      obtain ⟨inkeys, inwarn, inrec⟩ :=
        childrenInnerFold u (parentsOf acc.1 u) acc
      rw [List.foldl_cons, childrenForRecord_eq]
      set acc1 := (parentsOf acc.1 u).foldl (fun a p => childrenStep a u p) acc with hacc1
      obtain ⟨ihkeys, ihwarn, ihrec⟩ := ih acc1
      have hpar : ∀ w, parentsOf acc1.1 w = parentsOf acc.1 w := by
        intro w
        exact parentsOf_congr inkeys
          (fun k r' h => by
            obtain ⟨r, hr, hframe, _⟩ := inrec k r' h
            exact ⟨r, hr, hframe "is_a" (by decide)⟩) w
      have hkc : ∀ q, hasKey acc1.1 q = hasKey acc.1 q :=
        fun q => hasKey_congr inkeys q
      refine ⟨by rw [ihkeys, inkeys], ?_, ?_⟩
      · rw [ihwarn, inwarn]
        simp only [hpar, hkc, List.flatMap_cons, List.append_assoc]
      · intro k r' h
        obtain ⟨r1, hr1, hframe1, hchild1⟩ := ihrec k r' h
        obtain ⟨r0, hr0, hframe0, hchild0⟩ := inrec k r1 hr1
        refine ⟨r0, hr0, fun s hs => (hframe1 s hs).trans (hframe0 s hs), ?_⟩
        rw [hchild1, hchild0]
        simp only [hpar]
        rw [← combineChildren_append, List.flatMap_cons]

/-- Full characterization of `computeChildrenColumn`: keys unchanged, the
warnings are exactly the dangling-parent messages in order, and every record
keeps all attributes except children, which receives exactly the derived
child list appended to whatever was there before. -/
theorem computeChildrenColumn_spec (store : OboStore) :
    keysOf (computeChildrenColumn store).1 = keysOf store ∧
    (computeChildrenColumn store).2 = danglingWarnings store ∧
    ∀ k r', pyGet (computeChildrenColumn store).1 k = some r' →
      ∃ r, pyGet store k = some r ∧
        (∀ s, s ≠ "children" → pyGet r' s = pyGet r s) ∧
        pyGet r' "children" =
          combineChildren (pyGet r "children") (derivedChildren store k) := by
  obtain ⟨hkeys, hwarn, hrec⟩ := childrenOuterFold (keysOf store) (store, [])
  have e : computeChildrenColumn store = (keysOf store).foldl childrenForRecord (store, []) := rfl
  rw [e]
  refine ⟨hkeys, by simpa [danglingWarnings] using hwarn, fun k r' h => ?_⟩
  obtain ⟨r, hr, hframe, hchild⟩ := hrec k r' h
  exact ⟨r, hr, hframe, by simpa [derivedChildren] using hchild⟩

theorem computeChildrenColumn_preserves_idkey {store : OboStore}
    (hinv : IdMatchesKey store) : IdMatchesKey (computeChildrenColumn store).1 := by
  intro k r' h
  obtain ⟨-, -, hrec⟩ := computeChildrenColumn_spec store
  obtain ⟨r, hr, hframe, -⟩ := hrec k r' h
  rw [hframe "id" (by decide)]
  exact hinv _ _ hr

/-- The parse loop keeps the id-matches-key invariant across all lines. -/
theorem parseFold_idkey (lines : List String) :
    ∀ st0 st : ParseState, List.foldlM parseLine st0 lines = .ok st →
      IdMatchesKey st0.store → IdMatchesKey st.store := by
  induction lines with
  | nil =>
      intro st0 st h0 hinv
      simp only [List.foldlM_nil] at h0
      cases h0
      exact hinv
  | cons l ls ih =>
      intro st0 st h0 hinv
      rw [List.foldlM_cons] at h0
      cases hp : parseLine st0 l with
      | error e => rw [hp] at h0; simp [Bind.bind, Except.bind] at h0
      | ok st1 =>
          rw [hp] at h0
          simp only [Bind.bind, Except.bind] at h0
          exact ih st1 st h0 (parseLine_preserves_idkey hp hinv)

theorem parseStanzas_idkey {lines : List String} {st : ParseState}
    (h : parseStanzas lines = .ok st) : IdMatchesKey st.store :=
  parseFold_idkey lines initParseState st h
    (fun k r hkr => by simp [initParseState, pyGet] at hkr)

/-! ### Lemmas about category stamping (claims C4, C5, C10) -/

theorem stampRecord_frame (rec : Record) (i n : String) (aI aN : Bool) :
    ∀ s, s ≠ "category_id" → s ≠ "category_name" →
      pyGet (stampRecord rec i n aI aN) s = pyGet rec s := by
  intro s hsi hsn
  unfold stampRecord
  cases aI <;> cases aN <;>
    simp [pyGet_setItem_ne _ _ (Ne.symm hsi), pyGet_setItem_ne _ _ (Ne.symm hsn)]

theorem stampRecord_assigned (rec : Record) (i n : String) {aI aN : Bool}
    (h : aI = true ∨ aN = true) :
    isCategoryAlreadyAssigned (stampRecord rec i n aI aN) = true := by
  unfold stampRecord isCategoryAlreadyAssigned
  cases aI with
  | true =>
      cases aN with
      | true =>
          simp [hasKey_setItem_self,
            hasKey_setItem_ne _ _ (show ("category_name" : String) ≠ "category_id" by decide),
            hasKey_setItem_self]
      | false => simp [hasKey_setItem_self]
  | false =>
      cases aN with
      | true => simp [hasKey_setItem_self]
      | false => simp at h

theorem stampRecord_id_false_false (rec : Record) (i n : String) :
    stampRecord rec i n false false = rec := rfl

/-- Keys, frame, and preservation of already-assigned records through the
stamping loop. -/
theorem stampSubtreeAux_ok_facts (i n : String) (aI aN : Bool) :
    ∀ (fuel : Nat) (store : OboStore) (q v : List String) (store' : OboStore),
      stampSubtreeAux i n aI aN fuel store q v = .ok store' →
      keysOf store' = keysOf store ∧
      (∀ k r', pyGet store' k = some r' →
        ∃ r, pyGet store k = some r ∧
          ∀ s, s ≠ "category_id" → s ≠ "category_name" → pyGet r' s = pyGet r s) ∧
      (∀ k r, pyGet store k = some r → isCategoryAlreadyAssigned r = true →
        pyGet store' k = some r) := by
  intro fuel
  induction fuel with
  | zero => intro store q v store' h; exact absurd h (by simp [stampSubtreeAux])
  | succ f ih =>
      intro store q v store' h
      cases q with
      | nil =>
          simp only [stampSubtreeAux, Except.ok.injEq] at h
          subst h
          exact ⟨rfl, fun k r' hr => ⟨r', hr, fun s _ _ => rfl⟩, fun k r hr _ => hr⟩
      | cons nextId rest =>
          simp only [stampSubtreeAux] at h
          cases hg : pyGet store nextId with
          | none => rw [hg] at h; simp at h
          | some rec =>
              rw [hg] at h
              simp only [] at h
              split at h
              · exact ih store rest v store' h
              · rename_i hcond
                have hnotassigned : isCategoryAlreadyAssigned rec = false := by
                  cases hb : isCategoryAlreadyAssigned rec
                  · rfl
                  · exact absurd (Or.inr hb) hcond
                obtain ⟨ihkeys, ihframe, ihkeep⟩ :=
                  ih (setItem store nextId (stampRecord rec i n aI aN))
                    (rest ++ getMulti rec "children") (nextId :: v) store' h
                have hmem : nextId ∈ keysOf store := mem_keysOf_of_pyGet hg
                refine ⟨ihkeys.trans (keysOf_setItem_of_mem _ hmem), ?_, ?_⟩
                · intro k r' hr
                  obtain ⟨r1, hr1, hframe1⟩ := ihframe k r' hr
                  by_cases hk : nextId = k
                  · subst hk
                    rw [pyGet_setItem_self] at hr1
                    injection hr1 with hr1
                    subst hr1
                    exact ⟨rec, hg, fun s h1 h2 =>
                      (hframe1 s h1 h2).trans (stampRecord_frame rec i n aI aN s h1 h2)⟩
                  · rw [pyGet_setItem_ne _ _ hk] at hr1
                    exact ⟨r1, hr1, hframe1⟩
                · intro k r hr hassigned
                  have hk : nextId ≠ k := by
                    intro hk
                    subst hk
                    rw [hg] at hr
                    injection hr with hr
                    subst hr
                    rw [hnotassigned] at hassigned
                    exact Bool.noConfusion hassigned
                  exact ihkeep k r (by rw [pyGet_setItem_ne _ _ hk]; exact hr) hassigned

theorem subMeasure_cons (store : OboStore) (x : String) (q v : List String) :
    subMeasure store (x :: q) v = subMeasure store q v + 1 := by
  simp only [subMeasure, List.length_cons]
  omega

/-- Popping a root whose record is already assigned ends the stamping loop
immediately with the store unchanged. -/
theorem stampSubtreeAux_skip_root {store : OboStore} {c : String} {rec : Record}
    (i n : String) (aI aN : Bool)
    (hg : pyGet store c = some rec) (hassigned : isCategoryAlreadyAssigned rec = true) :
    stampSubtreeAux i n aI aN (subMeasure store [c] [] + 1) store [c] [] = .ok store := by
  simp only [stampSubtreeAux, hg]
  rw [if_pos (Or.inr hassigned)]
  rw [subMeasure_cons]
  simp [stampSubtreeAux]

theorem stampCategory_noop {store : OboStore} {c : String} {rec : Record}
    (aI aN : Bool)
    (hg : pyGet store c = some rec) (hassigned : isCategoryAlreadyAssigned rec = true) :
    stampCategory aI aN store c = .ok store := by
  unfold stampCategory
  rw [hg]
  simp only []
  rw [if_pos (by simp [hasKey, hg])]
  exact stampSubtreeAux_skip_root _ _ aI aN hg hassigned

theorem stampCategory_ok_facts {aI aN : Bool} {store store' : OboStore} {c : String}
    (h : stampCategory aI aN store c = .ok store') :
    keysOf store' = keysOf store ∧
    (∀ k r', pyGet store' k = some r' →
      ∃ r, pyGet store k = some r ∧
        ∀ s, s ≠ "category_id" → s ≠ "category_name" → pyGet r' s = pyGet r s) ∧
    (∀ k r, pyGet store k = some r → isCategoryAlreadyAssigned r = true →
      pyGet store' k = some r) := by
  unfold stampCategory at h
  cases hg : pyGet store c with
  | none => rw [hg] at h; simp at h
  | some catRec =>
      rw [hg] at h
      simp only [] at h
      rw [if_pos (by simp [hasKey, hg])] at h
      exact stampSubtreeAux_ok_facts _ _ aI aN _ store _ _ store' h

/-- After a successful `stampCategory`, the category record itself is
assigned (when at least one column flag is set). -/
theorem stampCategory_makes_assigned {aI aN : Bool} {store store' : OboStore} {c : String}
    (hor : aI = true ∨ aN = true) (h : stampCategory aI aN store c = .ok store') :
    ∃ r', pyGet store' c = some r' ∧ isCategoryAlreadyAssigned r' = true := by
  unfold stampCategory at h
  cases hg : pyGet store c with
  | none => rw [hg] at h; simp at h
  | some catRec =>
      rw [hg] at h
      simp only [] at h
      rw [if_pos (by simp [hasKey, hg])] at h
      cases hb : isCategoryAlreadyAssigned catRec with
      | true =>
          rw [stampSubtreeAux_skip_root _ _ aI aN hg hb] at h
          injection h with h
          subst h
          exact ⟨catRec, hg, hb⟩
      | false =>
          simp only [stampSubtreeAux, hg] at h
          rw [if_neg (by simp [hb])] at h
          rw [subMeasure_cons] at h
          obtain ⟨-, -, hkeep⟩ := stampSubtreeAux_ok_facts _ _ aI aN _ _ _ _ _ h
          refine ⟨stampRecord catRec c (getSingleD catRec "name" "") aI aN, ?_, ?_⟩
          · exact hkeep c _ (by rw [pyGet_setItem_self]) (stampRecord_assigned _ _ _ hor)
          · exact stampRecord_assigned _ _ _ hor

/-- With both column flags off, the stamping loop never modifies the store. -/
theorem stampSubtreeAux_id (i n : String) :
    ∀ (fuel : Nat) (store : OboStore) (q v : List String) (store' : OboStore),
      stampSubtreeAux i n false false fuel store q v = .ok store' → store' = store := by
  intro fuel
  induction fuel with
  | zero => intro store q v store' h; exact absurd h (by simp [stampSubtreeAux])
  | succ f ih =>
      intro store q v store' h
      cases q with
      | nil =>
          simp only [stampSubtreeAux, Except.ok.injEq] at h
          exact h.symm
      | cons nextId rest =>
          simp only [stampSubtreeAux] at h
          cases hg : pyGet store nextId with
          | none => rw [hg] at h; simp at h
          | some rec =>
              rw [hg] at h
              simp only [] at h
              split at h
              · exact ih store rest v store' h
              · rw [stampRecord_id_false_false, setItem_eq_self hg] at h
                exact ih store _ _ store' h

theorem catFold_id {store store' : OboStore} {cs : List String}
    (h : List.foldlM (stampCategory false false) store cs = .ok store') : store' = store := by
  induction cs generalizing store with
  | nil =>
      simp only [List.foldlM_nil] at h
      injection h with h
      exact h.symm
  | cons c cs ih =>
      rw [List.foldlM_cons] at h
      cases hs : stampCategory false false store c with
      | error e => rw [hs] at h; simp [Bind.bind, Except.bind] at h
      | ok st1 =>
          rw [hs] at h
          simp only [Bind.bind, Except.bind] at h
          have h1 : st1 = store := by
            unfold stampCategory at hs
            cases hg : pyGet store c with
            | none => rw [hg] at hs; simp at hs
            | some catRec =>
                rw [hg] at hs
                simp only [] at hs
                rw [if_pos (by simp [hasKey, hg])] at hs
                exact stampSubtreeAux_id _ _ _ _ _ _ _ hs
          subst h1
          exact ih h

theorem catFold_facts {aI aN : Bool} {cs : List String} {store store' : OboStore}
    (h : List.foldlM (stampCategory aI aN) store cs = .ok store') :
    keysOf store' = keysOf store ∧
    (∀ k r', pyGet store' k = some r' →
      ∃ r, pyGet store k = some r ∧
        ∀ s, s ≠ "category_id" → s ≠ "category_name" → pyGet r' s = pyGet r s) ∧
    (∀ k r, pyGet store k = some r → isCategoryAlreadyAssigned r = true →
      pyGet store' k = some r) := by
  induction cs generalizing store with
  | nil =>
      simp only [List.foldlM_nil] at h
      injection h with h
      subst h
      exact ⟨rfl, fun k r' hr => ⟨r', hr, fun s _ _ => rfl⟩, fun k r hr _ => hr⟩
  | cons c cs ih =>
      rw [List.foldlM_cons] at h
      cases hs : stampCategory aI aN store c with
      | error e => rw [hs] at h; simp [Bind.bind, Except.bind] at h
      | ok st1 =>
          rw [hs] at h
          simp only [Bind.bind, Except.bind] at h
          obtain ⟨keys1, frame1, keep1⟩ := stampCategory_ok_facts hs
          obtain ⟨keys2, frame2, keep2⟩ := ih h
          refine ⟨keys2.trans keys1, ?_, ?_⟩
          · intro k r' hr
            obtain ⟨r1, hr1, hf1⟩ := frame2 k r' hr
            obtain ⟨r0, hr0, hf0⟩ := frame1 k r1 hr1
            exact ⟨r0, hr0, fun s h1 h2 => (hf1 s h1 h2).trans (hf0 s h1 h2)⟩
          · intro k r hr hassigned
            exact keep2 k r (keep1 k r hr hassigned) hassigned

theorem catFold_all_assigned {aI aN : Bool} {cs : List String} {store store' : OboStore}
    (hor : aI = true ∨ aN = true)
    (h : List.foldlM (stampCategory aI aN) store cs = .ok store') :
    ∀ c ∈ cs, ∃ r', pyGet store' c = some r' ∧ isCategoryAlreadyAssigned r' = true := by
  induction cs generalizing store with
  | nil => intro c hc; simp at hc
  | cons c0 cs ih =>
      intro c hc
      rw [List.foldlM_cons] at h
      cases hs : stampCategory aI aN store c0 with
      | error e => rw [hs] at h; simp [Bind.bind, Except.bind] at h
      | ok st1 =>
          rw [hs] at h
          simp only [Bind.bind, Except.bind] at h
          rcases List.mem_cons.1 hc with hc0 | hcs
          · subst hc0
            obtain ⟨r1, hr1, hassigned⟩ := stampCategory_makes_assigned hor hs
            obtain ⟨-, -, keep⟩ := catFold_facts h
            exact ⟨r1, keep c r1 hr1 hassigned, hassigned⟩
          · exact ih h c hcs

/-- A category fold over ids whose records are all already assigned is a
no-op. -/
theorem catFold_noop {aI aN : Bool} {cs : List String} {store : OboStore}
    (hall : ∀ c ∈ cs, ∃ r, pyGet store c = some r ∧ isCategoryAlreadyAssigned r = true) :
    List.foldlM (stampCategory aI aN) store cs = .ok store := by
  induction cs with
  | nil => rfl
  | cons c cs ih =>
      obtain ⟨r, hr, hassigned⟩ := hall c (List.mem_cons_self c cs)
      rw [List.foldlM_cons, stampCategory_noop aI aN hr hassigned]
      simp only [Bind.bind, Except.bind]
      exact ih (fun c' hc' => hall c' (List.mem_cons_of_mem c hc'))

/-- Claim C4: idempotence of category propagation: whenever a run succeeds,
running it again with identical arguments returns the same store unchanged —
in particular the second run modifies no category_id or category_name. -/
theorem computeCategoryColumn_idempotent {store store1 : OboStore} {rootId : String}
    {aI aN : Bool} {w1 : List String}
    (h1 : computeCategoryColumn store rootId aI aN = .ok (store1, w1)) :
    ∃ w2, computeCategoryColumn store1 rootId aI aN = .ok (store1, w2) := by
  unfold computeCategoryColumn at h1
  cases hg : pyGet store rootId with
  | none => rw [hg] at h1; simp at h1
  | some rootRec =>
      rw [hg] at h1
      simp only [] at h1
      by_cases hempty : (getMulti rootRec "children").isEmpty
      · rw [if_pos hempty] at h1
        simp only [Except.ok.injEq, Prod.mk.injEq] at h1
        obtain ⟨hst, hw⟩ := h1
        subst hst
        refine ⟨["root term has no child terms"], ?_⟩
        unfold computeCategoryColumn
        rw [hg]
        simp only []
        rw [if_pos hempty]
      · rw [if_neg hempty] at h1
        cases hf : List.foldlM (stampCategory aI aN) store (getMulti rootRec "children") with
        | error e => rw [hf] at h1; simp [Except.map] at h1
        | ok store1' =>
            rw [hf] at h1
            simp only [Except.map, Except.ok.injEq, Prod.mk.injEq] at h1
            obtain ⟨hst, hw⟩ := h1
            subst hst
            by_cases hor : aI = true ∨ aN = true
            · obtain ⟨keys1, frame1, -⟩ := catFold_facts hf
              have hassigned := catFold_all_assigned hor hf
              have hrootmem : rootId ∈ keysOf store1' := by
                rw [keys1]
                exact mem_keysOf_of_pyGet hg
              obtain ⟨rootRec', hg'⟩ :=
                Option.isSome_iff_exists.1 ((pyGet_isSome_iff_mem_keysOf _ _).2 hrootmem)
              obtain ⟨r0, hr0, hf0⟩ := frame1 rootId rootRec' hg'
              rw [hg] at hr0
              injection hr0 with hr0
              subst hr0
              have hch : getMulti rootRec' "children" = getMulti rootRec "children" := by
                simp [getMulti, hf0 "children" (by decide) (by decide)]
              have hnoop :
                  List.foldlM (stampCategory aI aN) store1' (getMulti rootRec "children") =
                    .ok store1' :=
                catFold_noop (fun c hc => hassigned c hc)
              refine ⟨[], ?_⟩
              unfold computeCategoryColumn
              rw [hg']
              simp only []
              rw [hch, if_neg hempty, hnoop]
              simp [Except.map]
            · push_neg at hor
              obtain ⟨hai, han⟩ := hor
              have hai' : aI = false := by cases aI; rfl; exact absurd rfl hai
              have han' : aN = false := by cases aN; rfl; exact absurd rfl han
              subst hai'
              subst han'
              have hid : store1' = store := catFold_id hf
              subst hid
              refine ⟨[], ?_⟩
              unfold computeCategoryColumn
              rw [hg]
              simp only []
              rw [if_neg hempty, hf]
              simp [Except.map]

theorem rank_le_of_childReach {store : OboStore} {rank : String → Nat}
    (hacyclic : RankedAcyclic store rank) {a b : String} (h : ChildReach store a b) :
    rank b ≤ rank a := by
  induction h with
  | refl => exact le_refl _
  | tail hstep hedge ihle =>
      obtain ⟨r, hr, hmem⟩ := hedge
      exact le_trans (le_of_lt (hacyclic _ r hr _ hmem)) ihle

/-- Transfer of children reachability along a children-preserving frame. -/
theorem childReach_of_frame {st1 store : OboStore}
    (hframe : ∀ k r', pyGet st1 k = some r' →
      ∃ r, pyGet store k = some r ∧ pyGet r' "children" = pyGet r "children")
    {a b : String} (h : ChildReach st1 a b) : ChildReach store a b := by
  refine Relation.ReflTransGen.mono ?_ h
  intro x y hxy
  obtain ⟨r', hr', hmem⟩ := hxy
  obtain ⟨r, hr, hch⟩ := hframe x r' hr'
  refine ⟨r, hr, ?_⟩
  rw [getMulti] at hmem ⊢
  rw [← hch]
  exact hmem

/-- Any record modified by the stamping loop is reachable along children
links from some id of the starting queue. -/
theorem stampSubtreeAux_modified_reached (i n : String) (aI aN : Bool) :
    ∀ (fuel : Nat) (store : OboStore) (q v : List String) (store' : OboStore),
      stampSubtreeAux i n aI aN fuel store q v = .ok store' →
      ∀ k r r', pyGet store k = some r → pyGet store' k = some r' → r' ≠ r →
        ∃ x ∈ q, ChildReach store x k := by
  intro fuel
  induction fuel with
  | zero => intro store q v store' h; exact absurd h (by simp [stampSubtreeAux])
  | succ f ih =>
      intro store q v store' h k r r' hr hr' hne
      cases q with
      | nil =>
          simp only [stampSubtreeAux, Except.ok.injEq] at h
          subst h
          rw [hr] at hr'
          injection hr' with hr'
          exact absurd hr'.symm hne
      | cons nextId rest =>
          simp only [stampSubtreeAux] at h
          cases hg : pyGet store nextId with
          | none => rw [hg] at h; simp at h
          | some rec =>
              rw [hg] at h
              simp only [] at h
              split at h
              · obtain ⟨x, hx, hreach⟩ := ih store rest v store' h k r r' hr hr' hne
                exact ⟨x, List.mem_cons_of_mem _ hx, hreach⟩
              · by_cases hk : nextId = k
                · exact ⟨nextId, List.mem_cons_self _ _, by subst hk; exact .refl⟩
                · have hst1frame : ∀ k0 r0', pyGet (setItem store nextId
                      (stampRecord rec i n aI aN)) k0 = some r0' →
                      ∃ r0, pyGet store k0 = some r0 ∧
                        pyGet r0' "children" = pyGet r0 "children" := by
                    intro k0 r0' h0
                    by_cases hk0 : nextId = k0
                    · subst hk0
                      rw [pyGet_setItem_self] at h0
                      injection h0 with h0
                      subst h0
                      exact ⟨rec, hg, stampRecord_frame rec i n aI aN "children"
                        (by decide) (by decide)⟩
                    · rw [pyGet_setItem_ne _ _ hk0] at h0
                      exact ⟨r0', h0, rfl⟩
                  obtain ⟨x, hx, hreach⟩ := ih _ _ _ store' h k r r'
                    (by rw [pyGet_setItem_ne _ _ hk]; exact hr) hr' hne
                  have hreach' : ChildReach store x k := childReach_of_frame hst1frame hreach
                  rcases List.mem_append.1 hx with hx | hx
                  · exact ⟨x, List.mem_cons_of_mem _ hx, hreach'⟩
                  · refine ⟨nextId, List.mem_cons_self _ _, ?_⟩
                    exact Relation.ReflTransGen.head ⟨rec, hg, hx⟩ hreach'

theorem stampCategory_modified_reached {aI aN : Bool} {store store' : OboStore} {c : String}
    (h : stampCategory aI aN store c = .ok store')
    {k : String} {r r' : Record} (hr : pyGet store k = some r)
    (hr' : pyGet store' k = some r') (hne : r' ≠ r) : ChildReach store c k := by
  unfold stampCategory at h
  cases hg : pyGet store c with
  | none => rw [hg] at h; simp at h
  | some catRec =>
      rw [hg] at h
      simp only [] at h
      rw [if_pos (by simp [hasKey, hg])] at h
      obtain ⟨x, hx, hreach⟩ :=
        stampSubtreeAux_modified_reached _ _ aI aN _ store [c] [] store' h k r r' hr hr' hne
      rcases List.mem_singleton.1 hx with rfl
      exact hreach

theorem catFold_modified_reached {aI aN : Bool} {cs : List String} {store store' : OboStore}
    (h : List.foldlM (stampCategory aI aN) store cs = .ok store') :
    ∀ k r r', pyGet store k = some r → pyGet store' k = some r' → r' ≠ r →
      ∃ c ∈ cs, ChildReach store c k := by
  induction cs generalizing store with
  | nil =>
      intro k r r' hr hr' hne
      simp only [List.foldlM_nil] at h
      injection h with h
      subst h
      rw [hr] at hr'
      injection hr' with hr'
      exact absurd hr'.symm hne
  | cons c0 cs ih =>
      intro k r r' hr hr' hne
      rw [List.foldlM_cons] at h
      cases hs : stampCategory aI aN store c0 with
      | error e => rw [hs] at h; simp [Bind.bind, Except.bind] at h
      | ok st1 =>
          rw [hs] at h
          simp only [Bind.bind, Except.bind] at h
          obtain ⟨keys1, frame1, -⟩ := stampCategory_ok_facts hs
          have hmem1 : k ∈ keysOf st1 := by
            rw [keys1]; exact mem_keysOf_of_pyGet hr
          obtain ⟨r1, hr1⟩ :=
            Option.isSome_iff_exists.1 ((pyGet_isSome_iff_mem_keysOf _ _).2 hmem1)
          by_cases hchanged : r1 = r
          · subst hchanged
            obtain ⟨c', hc', hreach⟩ := ih h k _ r' hr1 hr' hne
            have hframe' : ∀ k0 r0', pyGet st1 k0 = some r0' →
                ∃ r0, pyGet store k0 = some r0 ∧
                  pyGet r0' "children" = pyGet r0 "children" := by
              intro k0 r0' h0
              obtain ⟨r0, hr0, hf0⟩ := frame1 k0 r0' h0
              exact ⟨r0, hr0, hf0 "children" (by decide) (by decide)⟩
            exact ⟨c', List.mem_cons_of_mem _ hc',
              childReach_of_frame hframe' hreach⟩
          · exact ⟨c0, List.mem_cons_self _ _,
              stampCategory_modified_reached hs hr hr1 hchanged⟩

/-- Claim C10: frame theorem for category propagation: keys are unchanged,
only the two category attributes of any record can change, only records
reachable along children links from a direct child of the root are modified
at all, and on an acyclic children graph the root record itself is never
modified. -/
theorem computeCategoryColumn_frame {store store' : OboStore} {rootId : String}
    {aI aN : Bool} {w : List String} {rank : String → Nat}
    (h : computeCategoryColumn store rootId aI aN = .ok (store', w))
    (hacyclic : RankedAcyclic store rank) :
    keysOf store' = keysOf store ∧
    (∀ k r', pyGet store' k = some r' →
      ∃ r, pyGet store k = some r ∧
        ∀ s, s ≠ "category_id" → s ≠ "category_name" → pyGet r' s = pyGet r s) ∧
    (∀ k r r', pyGet store k = some r → pyGet store' k = some r' → r' ≠ r →
      ∃ c ∈ rootChildrenOf store rootId, ChildReach store c k) ∧
    pyGet store' rootId = pyGet store rootId := by
  unfold computeCategoryColumn at h
  cases hg : pyGet store rootId with
  | none => rw [hg] at h; simp at h
  | some rootRec =>
      rw [hg] at h
      simp only [] at h
      by_cases hempty : (getMulti rootRec "children").isEmpty
      · rw [if_pos hempty] at h
        simp only [Except.ok.injEq, Prod.mk.injEq] at h
        obtain ⟨hst, -⟩ := h
        subst hst
        refine ⟨rfl, fun k r' hr => ⟨r', hr, fun s _ _ => rfl⟩, ?_, hg⟩
        intro k r r' hr hr' hne
        rw [hr] at hr'
        injection hr' with hr'
        exact absurd hr'.symm hne
      · rw [if_neg hempty] at h
        cases hf : List.foldlM (stampCategory aI aN) store (getMulti rootRec "children") with
        | error e => rw [hf] at h; simp [Except.map] at h
        | ok store1 =>
            rw [hf] at h
            simp only [Except.map, Except.ok.injEq, Prod.mk.injEq] at h
            obtain ⟨hst, -⟩ := h
            subst hst
            obtain ⟨keys1, frame1, -⟩ := catFold_facts hf
            have hmodified : ∀ k r r', pyGet store k = some r → pyGet store1 k = some r' →
                r' ≠ r → ∃ c ∈ rootChildrenOf store rootId, ChildReach store c k := by
              intro k r r' hr hr' hne
              obtain ⟨c, hc, hreach⟩ := catFold_modified_reached hf k r r' hr hr' hne
              exact ⟨c, by rw [rootChildrenOf, hg]; exact hc, hreach⟩
            refine ⟨keys1, frame1, hmodified, ?_⟩
            have hrootmem : rootId ∈ keysOf store1 := by
              rw [keys1]; exact mem_keysOf_of_pyGet hg
            obtain ⟨rootRec', hg'⟩ :=
              Option.isSome_iff_exists.1 ((pyGet_isSome_iff_mem_keysOf _ _).2 hrootmem)
            rw [hg']
            by_cases hne : rootRec' = rootRec
            · rw [hne]
            · obtain ⟨c, hc, hreach⟩ := hmodified rootId rootRec rootRec' hg hg' hne
              have h1 : rank rootId ≤ rank c := rank_le_of_childReach hacyclic hreach
              have h2 : rank c < rank rootId := by
                rw [rootChildrenOf, hg] at hc
                exact hacyclic rootId rootRec hg c hc
              omega

/-! ### Measure lemmas for the breadth-first loops -/

theorem chargeSum_filter_le (c : String → Nat) (v : List String) (x : String) :
    ∀ ks : List String,
      ((ks.filter (fun k => decide (k ∉ x :: v))).map c).sum ≤
        ((ks.filter (fun k => decide (k ∉ v))).map c).sum := by
  intro ks
  induction ks with
  | nil => simp
  | cons k ks ih =>
      simp only [List.filter_cons]
      by_cases h2 : k ∈ v
      · have h1 : k ∈ x :: v := List.mem_cons_of_mem _ h2
        rw [if_neg (by simp [h1]), if_neg (by simp [h2])]
        exact ih
      · by_cases h1 : k ∈ x :: v
        · rw [if_neg (by simp [h1]), if_pos (by simp [h2])]
          simp only [List.map_cons, List.sum_cons]
          omega
        · rw [if_pos (by simp [h1]), if_pos (by simp [h2])]
          simp only [List.map_cons, List.sum_cons]
          omega

theorem chargeSum_filter_visit (c : String → Nat) (v : List String) (x : String)
    (hxv : x ∉ v) : ∀ ks : List String, x ∈ ks →
      ((ks.filter (fun k => decide (k ∉ x :: v))).map c).sum + c x ≤
        ((ks.filter (fun k => decide (k ∉ v))).map c).sum := by
  intro ks
  induction ks with
  | nil => intro h; simp at h
  | cons k ks ih =>
      intro hmem
      simp only [List.filter_cons]
      by_cases hkx : k = x
      · subst hkx
        rw [if_neg (by simp), if_pos (by simp [hxv])]
        simp only [List.map_cons, List.sum_cons]
        have := chargeSum_filter_le c v k ks
        omega
      · rcases List.mem_cons.1 hmem with h | h
        · exact absurd h.symm hkx
        · by_cases h2 : k ∈ v
          · rw [if_neg (by simp [List.mem_cons, h2]), if_neg (by simp [h2])]
            exact ih h
          · have h1 : k ∉ x :: v := by
              simp [List.mem_cons, hkx, h2]
            rw [if_pos (by simp [h1, List.mem_cons, hkx, h2]), if_pos (by simp [h2])]
            simp only [List.map_cons, List.sum_cons]
            have := ih h
            omega

theorem chargeOf_eq {store : OboStore} {x : String} {rec : Record}
    (hg : pyGet store x = some rec) :
    chargeOf store x = 1 + (getMulti rec "children").length := by
  simp [chargeOf, hg]

theorem subMeasure_visit {store : OboStore} {nextId : String} {rec : Record}
    (hg : pyGet store nextId = some rec) {v : List String} (hnv : nextId ∉ v)
    (rest : List String) :
    subMeasure store (rest ++ getMulti rec "children") (nextId :: v) + 2 ≤
      subMeasure store (nextId :: rest) v := by
  have hmem : nextId ∈ keysOf store := mem_keysOf_of_pyGet hg
  have hvisit := chargeSum_filter_visit (chargeOf store) v nextId hnv (keysOf store) hmem
  have hcharge := chargeOf_eq hg
  simp only [subMeasure, List.length_append, List.length_cons]
  omega

/-- The ids yielded by the breadth-first loop are pairwise distinct and avoid
the processed set. -/
theorem getSubstreeAux_nodup (store : OboStore) (skipRecord : Option (Record → Bool)) :
    ∀ (fuel : Nat) (q v : List String) (out : List (String × Record)),
      getSubstreeAux store skipRecord fuel q v = .ok out →
      (out.map Prod.fst).Nodup ∧ ∀ x ∈ out.map Prod.fst, x ∉ v := by
  intro fuel
  induction fuel with
  | zero => intro q v out h; exact absurd h (by simp [getSubstreeAux])
  | succ f ih =>
      intro q v out h
      cases q with
      | nil =>
          simp only [getSubstreeAux, Except.ok.injEq] at h
          subst h
          simp
      | cons nextId rest =>
          simp only [getSubstreeAux] at h
          cases hg : pyGet store nextId with
          | none => rw [hg] at h; simp at h
          | some rec =>
              rw [hg] at h
              simp only [] at h
              split at h
              · exact ih rest v out h
              · rename_i hcond
                cases hin : getSubstreeAux store skipRecord f
                    (rest ++ getMulti rec "children") (nextId :: v) with
                | error e => rw [hin] at h; simp [Except.map] at h
                | ok tail =>
                    rw [hin] at h
                    simp only [Except.map, Except.ok.injEq] at h
                    subst h
                    obtain ⟨hnodup, hnotv⟩ := ih _ _ tail hin
                    have hnv : nextId ∉ v := fun hmem => hcond (Or.inl hmem)
                    refine ⟨?_, ?_⟩
                    · simp only [List.map_cons, List.nodup_cons]
                      refine ⟨fun hmem => ?_, hnodup⟩
                      exact (hnotv nextId hmem) (List.mem_cons_self _ _)
                    · intro x hx
                      simp only [List.map_cons, List.mem_cons] at hx
                      rcases hx with rfl | hx
                      · exact hnv
                      · exact fun hxv => (hnotv x hx) (List.mem_cons_of_mem _ hxv)

/-- Soundness of the breadth-first loop for any predicate that holds on the
queue and is closed under children links out of unskipped records. -/
theorem getSubstreeAux_sound (store : OboStore) (skipRecord : Option (Record → Bool))
    (P : String → Prop)
    (hclose : ∀ a b, P a → notSkipped store skipRecord a → childEdge store a b → P b) :
    ∀ (fuel : Nat) (q v : List String) (out : List (String × Record)),
      getSubstreeAux store skipRecord fuel q v = .ok out →
      (∀ x ∈ q, P x) →
      ∀ x ∈ out.map Prod.fst, P x ∧ notSkipped store skipRecord x := by
  intro fuel
  induction fuel with
  | zero => intro q v out h; exact absurd h (by simp [getSubstreeAux])
  | succ f ih =>
      intro q v out h hq
      cases q with
      | nil =>
          simp only [getSubstreeAux, Except.ok.injEq] at h
          subst h
          simp
      | cons nextId rest =>
          simp only [getSubstreeAux] at h
          cases hg : pyGet store nextId with
          | none => rw [hg] at h; simp at h
          | some rec =>
              rw [hg] at h
              simp only [] at h
              split at h
              · exact ih rest v out h (fun x hx => hq x (List.mem_cons_of_mem _ hx))
              · rename_i hcond
                cases hin : getSubstreeAux store skipRecord f
                    (rest ++ getMulti rec "children") (nextId :: v) with
                | error e => rw [hin] at h; simp [Except.map] at h
                | ok tail =>
                    rw [hin] at h
                    simp only [Except.map, Except.ok.injEq] at h
                    subst h
                    have hskip : skipTest skipRecord rec = false := by
                      cases hb : skipTest skipRecord rec
                      · rfl
                      · exact absurd (Or.inr hb) hcond
                    have hns : notSkipped store skipRecord nextId := ⟨rec, hg, hskip⟩
                    have hP : P nextId := hq nextId (List.mem_cons_self _ _)
                    have hq' : ∀ x ∈ rest ++ getMulti rec "children", P x := by
                      intro x hx
                      rcases List.mem_append.1 hx with hx | hx
                      · exact hq x (List.mem_cons_of_mem _ hx)
                      · exact hclose nextId x hP hns ⟨rec, hg, hx⟩
                    intro x hx
                    simp only [List.map_cons, List.mem_cons] at hx
                    rcases hx with rfl | hx
                    · exact ⟨hP, hns⟩
                    · exact ih _ _ tail hin hq' x hx

/-- Any unskipped id sitting in the queue is eventually yielded (or was
already processed). -/
theorem getSubstreeAux_mem_of_queue (store : OboStore) (skipRecord : Option (Record → Bool)) :
    ∀ (fuel : Nat) (q v : List String) (out : List (String × Record)),
      getSubstreeAux store skipRecord fuel q v = .ok out →
      ∀ x ∈ q, notSkipped store skipRecord x →
        x ∈ out.map Prod.fst ∨ x ∈ v := by
  intro fuel
  induction fuel with
  | zero => intro q v out h; exact absurd h (by simp [getSubstreeAux])
  | succ f ih =>
      intro q v out h x hx hns
      cases q with
      | nil => simp at hx
      | cons nextId rest =>
          simp only [getSubstreeAux] at h
          cases hg : pyGet store nextId with
          | none => rw [hg] at h; simp at h
          | some rec =>
              rw [hg] at h
              simp only [] at h
              split at h
              · rename_i hcond
                rcases List.mem_cons.1 hx with rfl | hx
                · obtain ⟨rx, hrx, hskipx⟩ := hns
                  rw [hg] at hrx
                  injection hrx with hrx
                  subst hrx
                  rcases hcond with hmem | hskip
                  · exact Or.inr hmem
                  · rw [hskipx] at hskip
                    exact Bool.noConfusion hskip
                · exact ih rest v out h x hx hns
              · cases hin : getSubstreeAux store skipRecord f
                    (rest ++ getMulti rec "children") (nextId :: v) with
                | error e => rw [hin] at h; simp [Except.map] at h
                | ok tail =>
                    rw [hin] at h
                    simp only [Except.map, Except.ok.injEq] at h
                    subst h
                    rcases List.mem_cons.1 hx with rfl | hx
                    · exact Or.inl (by simp)
                    · rcases ih _ _ tail hin x (List.mem_append_left _ hx) hns with hmem | hmem
                      · exact Or.inl (by simp [hmem])
                      · rcases List.mem_cons.1 hmem with rfl | hmem
                        · exact Or.inl (by simp)
                        · exact Or.inr hmem

/-- Every unskipped child of a yielded record is eventually yielded (or was
already processed). -/
theorem getSubstreeAux_children_mem (store : OboStore) (skipRecord : Option (Record → Bool)) :
    ∀ (fuel : Nat) (q v : List String) (out : List (String × Record)),
      getSubstreeAux store skipRecord fuel q v = .ok out →
      ∀ y ∈ out.map Prod.fst, ∀ c, childEdge store y c →
        notSkipped store skipRecord c →
        c ∈ out.map Prod.fst ∨ c ∈ v := by
  intro fuel
  induction fuel with
  | zero => intro q v out h; exact absurd h (by simp [getSubstreeAux])
  | succ f ih =>
      intro q v out h y hy c hedge hns
      cases q with
      | nil =>
          simp only [getSubstreeAux, Except.ok.injEq] at h
          subst h
          simp at hy
      | cons nextId rest =>
          simp only [getSubstreeAux] at h
          cases hg : pyGet store nextId with
          | none => rw [hg] at h; simp at h
          | some rec =>
              rw [hg] at h
              simp only [] at h
              split at h
              · exact ih rest v out h y hy c hedge hns
              · cases hin : getSubstreeAux store skipRecord f
                    (rest ++ getMulti rec "children") (nextId :: v) with
                | error e => rw [hin] at h; simp [Except.map] at h
                | ok tail =>
                    rw [hin] at h
                    simp only [Except.map, Except.ok.injEq] at h
                    subst h
                    have hlift : c ∈ tail.map Prod.fst ∨ c ∈ nextId :: v →
                        c ∈ ((nextId, rec) :: tail).map Prod.fst ∨ c ∈ v := by
                      rintro (hmem | hmem)
                      · exact Or.inl (by simp [hmem])
                      · rcases List.mem_cons.1 hmem with rfl | hmem
                        · exact Or.inl (by simp)
                        · exact Or.inr hmem
                    simp only [List.map_cons, List.mem_cons] at hy
                    rcases hy with rfl | hy
                    · obtain ⟨ry, hry, hmemc⟩ := hedge
                      rw [hg] at hry
                      injection hry with hry
                      subst hry
                      exact hlift (getSubstreeAux_mem_of_queue store skipRecord f _ _ tail hin
                        c (List.mem_append_right _ hmemc) hns)
                    · exact hlift (ih _ _ tail hin y hy c hedge hns)

/-- On a children-closed store, the breadth-first loop completes within the
step measure: the supplied fuel is never exhausted. -/
theorem getSubstreeAux_total (store : OboStore) (skipRecord : Option (Record → Bool))
    (hclosed : ChildrenClosed store) :
    ∀ (fuel : Nat) (q v : List String), subMeasure store q v < fuel →
      (∀ x ∈ q, x ∈ keysOf store) →
      ∃ out, getSubstreeAux store skipRecord fuel q v = .ok out := by
  intro fuel
  induction fuel with
  | zero => intro q v hlt; omega
  | succ f ih =>
      intro q v hlt hq
      cases q with
      | nil => exact ⟨[], by simp [getSubstreeAux]⟩
      | cons nextId rest =>
          have hmem : nextId ∈ keysOf store := hq nextId (List.mem_cons_self _ _)
          obtain ⟨rec, hg⟩ :=
            Option.isSome_iff_exists.1 ((pyGet_isSome_iff_mem_keysOf _ _).2 hmem)
          by_cases hcond : nextId ∈ v ∨ skipTest skipRecord rec
          · have hrest : subMeasure store rest v < f := by
              rw [subMeasure_cons] at hlt
              omega
            obtain ⟨out, hout⟩ := ih rest v hrest
              (fun x hx => hq x (List.mem_cons_of_mem _ hx))
            refine ⟨out, ?_⟩
            simp only [getSubstreeAux, hg]
            rw [if_pos hcond]
            exact hout
          · have hnv : nextId ∉ v := fun hmem' => hcond (Or.inl hmem')
            have hnext : subMeasure store (rest ++ getMulti rec "children") (nextId :: v) < f := by
              have := subMeasure_visit hg hnv rest
              omega
            obtain ⟨out, hout⟩ := ih _ _ hnext (fun x hx => by
              rcases List.mem_append.1 hx with hx | hx
              · exact hq x (List.mem_cons_of_mem _ hx)
              · exact hclosed nextId rec hg x hx)
            refine ⟨(nextId, rec) :: out, ?_⟩
            simp only [getSubstreeAux, hg]
            rw [if_neg hcond, hout]
            rfl

/-- Decomposition of the queue-based loop into one layer followed by the
loop on the remaining queue and the collected next frontier. -/
theorem getSubstreeAux_decompose (store : OboStore) (skipRecord : Option (Record → Bool)) :
    ∀ (q1 : List String) (fuel : Nat) (q2 v : List String),
      getSubstreeAux store skipRecord (q1.length + fuel) (q1 ++ q2) v =
        (processLayer store skipRecord q1 v).bind
          (fun yl => (getSubstreeAux store skipRecord fuel (q2 ++ yl.2.1) yl.2.2).map
            (fun rest => yl.1 ++ rest)) := by
  intro q1
  induction q1 with
  | nil =>
      intro fuel q2 v
      simp only [List.length_nil, Nat.zero_add, List.nil_append, processLayer]
      simp only [Except.bind]
      cases hx : getSubstreeAux store skipRecord fuel (q2 ++ []) v with
      | error e => simp [List.append_nil] at hx; simp [hx, Except.map]
      | ok out => simp [List.append_nil] at hx; simp [hx, Except.map]
  | cons x xs ih =>
      intro fuel q2 v
      simp only [List.length_cons, List.cons_append]
      rw [Nat.succ_add]
      simp only [getSubstreeAux, processLayer]
      cases hg : pyGet store x with
      | none => simp [Except.bind]
      | some rec =>
          simp only []
          by_cases hcond : x ∈ v ∨ skipTest skipRecord rec
          · rw [if_pos hcond, if_pos hcond]
            exact ih fuel q2 v
          · rw [if_neg hcond, if_neg hcond]
            rw [List.append_assoc]
            rw [ih fuel (q2 ++ getMulti rec "children") (x :: v)]
            cases hp : processLayer store skipRecord xs (x :: v) with
            | error e => simp [hp, Except.bind, Except.map]
            | ok yl =>
                simp only [hp, Except.bind, Except.map]
                rw [← List.append_assoc]
                cases getSubstreeAux store skipRecord fuel
                    ((q2 ++ getMulti rec "children") ++ yl.2.1) yl.2.2 with
                | error e => rfl
                | ok rest => rfl

/-- Each successful layer lowers the step measure by at least the layer
length. -/
theorem processLayer_measure (store : OboStore) (skipRecord : Option (Record → Bool)) :
    ∀ (q v : List String) (ys : List (String × Record)) (ps v' : List String),
      processLayer store skipRecord q v = .ok (ys, ps, v') →
      subMeasure store ps v' + q.length ≤ subMeasure store q v := by
  intro q
  induction q with
  | nil =>
      intro v ys ps v' h
      simp only [processLayer, Except.ok.injEq, Prod.mk.injEq] at h
      obtain ⟨-, hps, hv⟩ := h
      subst hps
      subst hv
      simp
  | cons x xs ih =>
      intro v ys ps v' h
      simp only [processLayer] at h
      cases hg : pyGet store x with
      | none => rw [hg] at h; simp at h
      | some rec =>
          rw [hg] at h
          simp only [] at h
          split at h
          · have := ih v ys ps v' h
            rw [subMeasure_cons]
            simp only [List.length_cons]
            omega
          · rename_i hcond
            cases hin : processLayer store skipRecord xs (x :: v) with
            | error e => rw [hin] at h; simp [Except.map] at h
            | ok yl =>
                rw [hin] at h
                simp only [Except.map, Except.ok.injEq, Prod.mk.injEq] at h
                obtain ⟨-, hps, hv⟩ := h
                subst hps
                subst hv
                obtain ⟨ys0, ps0, v0⟩ := yl
                have hrec := ih (x :: v) ys0 ps0 v0 hin
                have hnv : x ∉ v := fun hmem => hcond (Or.inl hmem)
                have hvisit := subMeasure_visit hg hnv xs
                simp only [subMeasure, List.length_append, List.length_cons] at hrec hvisit ⊢
                omega

/-- The queue-based loop and the layered reference produce the same result
whenever both have fuel above the step measure. -/
theorem getSubstreeAux_eq_bfsLayers (store : OboStore) (skipRecord : Option (Record → Bool)) :
    ∀ (f1 : Nat), ∀ (f2 : Nat) (q v : List String),
      subMeasure store q v < f1 → subMeasure store q v < f2 →
      getSubstreeAux store skipRecord f1 q v = bfsLayers store skipRecord f2 q v := by
  intro f1
  induction f1 using Nat.strong_induction_on with
  | _ f1 ih =>
      intro f2 q v hlt1 hlt2
      obtain ⟨f1', rfl⟩ : ∃ n, f1 = n + 1 := ⟨f1 - 1, by omega⟩
      obtain ⟨f2', rfl⟩ : ∃ n, f2 = n + 1 := ⟨f2 - 1, by omega⟩
      cases q with
      | nil => simp [getSubstreeAux, bfsLayers]
      | cons nextId rest =>
          have hlen : (nextId :: rest).length ≤ subMeasure store (nextId :: rest) v := by
            simp [subMeasure]
          have hf1 : f1' + 1 = (nextId :: rest).length + (f1' + 1 - (nextId :: rest).length) := by
            omega
          rw [hf1]
          have hdec := getSubstreeAux_decompose store skipRecord (nextId :: rest)
            (f1' + 1 - (nextId :: rest).length) [] v
          rw [List.append_nil] at hdec
          rw [hdec]
          show _ = bfsLayers store skipRecord (f2' + 1) (nextId :: rest) v
          have hb : bfsLayers store skipRecord (f2' + 1) (nextId :: rest) v =
              (processLayer store skipRecord (nextId :: rest) v).bind
                (fun yl => (bfsLayers store skipRecord f2' yl.2.1 yl.2.2).map
                  (fun rest' => yl.1 ++ rest')) := rfl
          rw [hb]
          cases hp : processLayer store skipRecord (nextId :: rest) v with
          | error e => rfl
          | ok yl =>
              obtain ⟨ys, ps, v'⟩ := yl
              have hmeasure := processLayer_measure store skipRecord _ v ys ps v' hp
              simp only [Except.bind]
              have hih : getSubstreeAux store skipRecord
                  (f1' + 1 - (nextId :: rest).length) ([] ++ ps) v' =
                  bfsLayers store skipRecord f2' ps v' := by
                rw [List.nil_append]
                refine ih (f1' + 1 - (nextId :: rest).length) (by simp; omega) f2' ps v' ?_ ?_
                · simp only [List.length_cons] at hmeasure hlen ⊢
                  omega
                · simp only [List.length_cons] at hmeasure hlen ⊢
                  omega
              rw [hih]

/-- The generator `get_substree` is exactly the layered breadth-first
reference traversal. -/
theorem get_substree_eq_bfsSpec (store : OboStore) (rootId : String)
    (skipRecord : Option (Record → Bool)) :
    get_substree store rootId skipRecord = bfsSpecTraversal store rootId skipRecord := by
  unfold get_substree bfsSpecTraversal
  by_cases hroot : hasKey store rootId
  · rw [if_pos hroot, if_pos hroot]
    exact getSubstreeAux_eq_bfsLayers store skipRecord _ _ [rootId] []
      (Nat.lt_succ_self _) (Nat.lt_succ_self _)
  · rw [if_neg hroot, if_neg hroot]

theorem pyGet_mem {β : Type} : ∀ {l : List (String × β)} {k : String} {v : β},
    pyGet l k = some v → (k, v) ∈ l := by
  intro l
  induction l with
  | nil => intro k v h; simp [pyGet] at h
  | cons hd tl ih =>
      intro k v h
      obtain ⟨k', v'⟩ := hd
      by_cases hk : k' = k
      · subst hk
        simp only [pyGet, if_pos rfl] at h
        injection h with h
        subst h
        exact List.mem_cons_self _ _
      · simp only [pyGet, hk, if_false] at h
        exact List.mem_cons_of_mem _ (ih h)

theorem childrenClosed_of_entries {store : OboStore}
    (h : ∀ kr ∈ store, ∀ c ∈ getMulti kr.2 "children", c ∈ keysOf store) :
    ChildrenClosed store :=
  fun k r hr => h (k, r) (pyGet_mem hr)

theorem rankedAcyclic_of_entries {store : OboStore} {rank : String → Nat}
    (h : ∀ kr ∈ store, ∀ c ∈ getMulti kr.2 "children", rank c < rank kr.1) :
    RankedAcyclic store rank :=
  fun k r hr => h (k, r) (pyGet_mem hr)

theorem idMatchesKey_of_entries {store : OboStore}
    (h : ∀ kr ∈ store, pyGet kr.2 "id" = some (.single kr.1)) :
    IdMatchesKey store :=
  fun k r hr => h (k, r) (pyGet_mem hr)

/-- Claim C2, counterexample: rC is reachable from rA along children links
and is itself not skipped, yet it is not yielded, because the only path to it
passes through the skipped record rB. -/
theorem claim_C2_counterexample :
    get_substree storeC2 "rA" (some skipC2) =
      .ok [("rA", [("id", Value.single "rA"), ("children", Value.multi ["rB"])])] ∧
    ChildReach storeC2 "rA" "rC" ∧
    notSkipped storeC2 (some skipC2) "rC" ∧
    "rC" ∉ (([("rA", [("id", Value.single "rA"), ("children", Value.multi ["rB"])])] :
      List (String × Record)).map Prod.fst) := by
  refine ⟨by rfl, ?_, ?_, by decide⟩
  · refine @Relation.ReflTransGen.head String (childEdge storeC2) "rA" "rB" "rC" ?_
      (Relation.ReflTransGen.single ?_)
    · exact ⟨[("id", Value.single "rA"), ("children", Value.multi ["rB"])], by decide, by decide⟩
    · exact ⟨[("id", Value.single "rB"), ("flag", Value.multi ["yes"]),
        ("is_a", Value.multi ["rA"]), ("children", Value.multi ["rC"])], by decide, by decide⟩
  · exact ⟨[("id", Value.single "rC"), ("is_a", Value.multi ["rB"])], by decide, by decide⟩

/-- Claim C2, amended: on a children-closed store with the root present, the
traversal succeeds; it yields pairwise-distinct records; it yields exactly
the records reachable from the root through unskipped records and themselves
not skipped; and its yield sequence is exactly the layered breadth-first
reference traversal (breadth-first from the root, first-seen order among
siblings). -/
theorem get_substree_spec {store : OboStore} {rootId : String}
    {skipRecord : Option (Record → Bool)}
    (hroot : hasKey store rootId = true)
    (hclosed : ∀ kr ∈ store, ∀ c ∈ getMulti kr.2 "children", c ∈ keysOf store) :
    ∃ out, get_substree store rootId skipRecord = .ok out ∧
      (out.map Prod.fst).Nodup ∧
      (∀ x, x ∈ out.map Prod.fst ↔
        Relation.ReflTransGen (nsEdge store skipRecord) rootId x ∧
          notSkipped store skipRecord x) ∧
      get_substree store rootId skipRecord = bfsSpecTraversal store rootId skipRecord := by
  have hclosed' : ChildrenClosed store := childrenClosed_of_entries hclosed
  have hrootmem : rootId ∈ keysOf store := (hasKey_iff_mem_keysOf _ _).1 hroot
  obtain ⟨out, hout⟩ := getSubstreeAux_total store skipRecord hclosed'
    (subMeasure store [rootId] [] + 1) [rootId] [] (Nat.lt_succ_self _)
    (fun x hx => by rcases List.mem_singleton.1 hx with rfl; exact hrootmem)
  have hrun : get_substree store rootId skipRecord = .ok out := by
    unfold get_substree
    rw [if_pos hroot]
    exact hout
  obtain ⟨hnodup, -⟩ := getSubstreeAux_nodup store skipRecord _ _ _ _ hout
  refine ⟨out, hrun, hnodup, ?_, get_substree_eq_bfsSpec store rootId skipRecord⟩
  intro x
  constructor
  · intro hx
    exact getSubstreeAux_sound store skipRecord
      (fun y => Relation.ReflTransGen (nsEdge store skipRecord) rootId y)
      (fun a b ha hns hedge => Relation.ReflTransGen.tail ha ⟨hedge, hns⟩)
      _ _ _ _ hout
      (fun y hy => by rcases List.mem_singleton.1 hy with rfl; exact .refl)
      x hx
  · rintro ⟨hreach, hns⟩
    have hgen : notSkipped store skipRecord x → x ∈ out.map Prod.fst := by
      clear hns
      induction hreach with
      | refl =>
          intro hns0
          rcases getSubstreeAux_mem_of_queue store skipRecord _ _ _ _ hout rootId
            (List.mem_singleton_self _) hns0 with hmem | hmem
          · exact hmem
          · simp at hmem
      | tail hsteps hedge ihm =>
          intro hnsx
          obtain ⟨hedgeyx, hnsy⟩ := hedge
          rcases getSubstreeAux_children_mem store skipRecord _ _ _ _ hout _
            (ihm hnsy) _ hedgeyx hnsx with hmem | hmem
          · exact hmem
          · simp at hmem
    exact hgen hns

/-- Witness for claim C2 at a concrete store and skip predicate. -/
theorem get_substree_spec_witness :
    ∃ out, get_substree storeC2 "rA" (some skipC2) = .ok out ∧
      (out.map Prod.fst).Nodup ∧
      (∀ x, x ∈ out.map Prod.fst ↔
        Relation.ReflTransGen (nsEdge storeC2 (some skipC2)) "rA" x ∧
          notSkipped storeC2 (some skipC2) x) ∧
      get_substree storeC2 "rA" (some skipC2) = bfsSpecTraversal storeC2 "rA" (some skipC2) :=
  get_substree_spec (by decide) (by decide)

/-- Witness for claim C4: on the concrete diamond, the second run returns the
once-stamped store unchanged. -/
theorem computeCategoryColumn_idempotent_witness :
    ∃ w2, computeCategoryColumn storeC4stamped "A" true true = .ok (storeC4stamped, w2) :=
  computeCategoryColumn_idempotent
    (show computeCategoryColumn storeC4 "A" true true = .ok (storeC4stamped, []) from rfl)

/-- Claim C5: a record stamped at any point of the category loop is never
re-stamped by the remaining categories (first-reaching category wins), and on
the diamond example with root children in order [B, C], the records B and D
receive category B while C receives category C. -/
theorem category_first_anchor_wins :
    (∀ (aI aN : Bool) (cs : List String) (st1 store' : OboStore) (k : String) (r : Record),
        List.foldlM (stampCategory aI aN) st1 cs = .ok store' →
        pyGet st1 k = some r → isCategoryAlreadyAssigned r = true →
        pyGet store' k = some r) ∧
    parse_obo_format linesC5 = .ok storeC5 ∧
    rootChildrenOf storeC5 "A" = ["B", "C"] ∧
    parentsOf storeC5 "D" = ["B", "C"] ∧
    computeCategoryColumn storeC5 "A" true true = .ok (storeC5stamped, []) ∧
    categoryIdOf storeC5stamped "B" = "B" ∧
    categoryIdOf storeC5stamped "C" = "C" ∧
    categoryIdOf storeC5stamped "D" = "B" := by
  refine ⟨?_, by rfl, by decide, by decide, by rfl, by decide, by decide, by decide⟩
  intro aI aN cs st1 store' k r h hr hassigned
  exact (catFold_facts h).2.2 k r hr hassigned

/-- Witness for claim C5: the remaining category C does not re-stamp the
record D already stamped through B. -/
theorem category_first_anchor_wins_witness :
    pyGet storeC5stamped "D" =
      some [("id", Value.single "D"), ("name", Value.single "nD"),
            ("is_a", Value.multi ["B", "C"]),
            ("category_id", Value.single "B"), ("category_name", Value.single "nB")] :=
  category_first_anchor_wins.1 true true ["C"] storeC5mid storeC5stamped "D"
    [("id", Value.single "D"), ("name", Value.single "nD"),
     ("is_a", Value.multi ["B", "C"]),
     ("category_id", Value.single "B"), ("category_name", Value.single "nB")]
    (by rfl) (by rfl) (by decide)

/-- Keys and non-category attributes survive category propagation. -/
theorem computeCategoryColumn_keysframe {store store' : OboStore} {rootId : String}
    {aI aN : Bool} {w : List String}
    (h : computeCategoryColumn store rootId aI aN = .ok (store', w)) :
    keysOf store' = keysOf store ∧
    ∀ k r', pyGet store' k = some r' →
      ∃ r, pyGet store k = some r ∧
        ∀ s, s ≠ "category_id" → s ≠ "category_name" → pyGet r' s = pyGet r s := by
  unfold computeCategoryColumn at h
  cases hg : pyGet store rootId with
  | none => rw [hg] at h; simp at h
  | some rootRec =>
      rw [hg] at h
      simp only [] at h
      by_cases hempty : (getMulti rootRec "children").isEmpty
      · rw [if_pos hempty] at h
        simp only [Except.ok.injEq, Prod.mk.injEq] at h
        obtain ⟨hst, -⟩ := h
        subst hst
        exact ⟨rfl, fun k r' hr => ⟨r', hr, fun s _ _ => rfl⟩⟩
      · rw [if_neg hempty] at h
        cases hf : List.foldlM (stampCategory aI aN) store (getMulti rootRec "children") with
        | error e => rw [hf] at h; simp [Except.map] at h
        | ok store1 =>
            rw [hf] at h
            simp only [Except.map, Except.ok.injEq, Prod.mk.injEq] at h
            obtain ⟨hst, -⟩ := h
            subst hst
            obtain ⟨keys1, frame1, -⟩ := catFold_facts hf
            exact ⟨keys1, frame1⟩

/-- Claim C7: records parsed by `parse_obo_format` carry an id attribute
equal to their store key, and both post-processing passes preserve this
invariant as well as the store keys themselves. -/
theorem parse_id_matches_key :
    (∀ (lines : List String) (store : OboStore),
      parse_obo_format lines = .ok store → IdMatchesKey store) ∧
    (∀ store : OboStore, IdMatchesKey store →
      IdMatchesKey (computeChildrenColumn store).1 ∧
      keysOf (computeChildrenColumn store).1 = keysOf store) ∧
    (∀ (store store' : OboStore) (rootId : String) (aI aN : Bool) (w : List String),
      computeCategoryColumn store rootId aI aN = .ok (store', w) →
      IdMatchesKey store → IdMatchesKey store' ∧ keysOf store' = keysOf store) := by
  refine ⟨?_, ?_, ?_⟩
  · intro lines store h
    unfold parse_obo_format at h
    cases hp : parseStanzas lines with
    | error e => rw [hp] at h; simp [Except.map] at h
    | ok st =>
        rw [hp] at h
        simp only [Except.map, Except.ok.injEq] at h
        subst h
        exact computeChildrenColumn_preserves_idkey (parseStanzas_idkey hp)
  · intro store hinv
    exact ⟨computeChildrenColumn_preserves_idkey hinv,
      (computeChildrenColumn_spec store).1⟩
  · intro store store' rootId aI aN w h hinv
    obtain ⟨hkeys, hframe⟩ := computeCategoryColumn_keysframe h
    refine ⟨?_, hkeys⟩
    intro k r' hr
    obtain ⟨r, hr0, hf0⟩ := hframe k r' hr
    rw [hf0 "id" (by decide) (by decide)]
    exact hinv _ _ hr0

/-- Witness for claim C7 on a concrete ontology. -/
theorem parse_id_matches_key_witness :
    IdMatchesKey storeC5 ∧
    (IdMatchesKey (computeChildrenColumn storeC4).1 ∧
      keysOf (computeChildrenColumn storeC4).1 = keysOf storeC4) ∧
    (IdMatchesKey storeC4stamped ∧ keysOf storeC4stamped = keysOf storeC4) :=
  ⟨parse_id_matches_key.1 linesC5 storeC5 (by rfl),
   parse_id_matches_key.2.1 storeC4 (idMatchesKey_of_entries (by decide)),
   parse_id_matches_key.2.2 storeC4 storeC4stamped "A" true true [] (by rfl)
     (idMatchesKey_of_entries (by decide))⟩

/-- Witness for claim C10 on the concrete diamond with an explicit rank
function. -/
theorem computeCategoryColumn_frame_witness :
    keysOf storeC4stamped = keysOf storeC4 ∧
    (∀ k r', pyGet storeC4stamped k = some r' →
      ∃ r, pyGet storeC4 k = some r ∧
        ∀ s, s ≠ "category_id" → s ≠ "category_name" → pyGet r' s = pyGet r s) ∧
    (∀ k r r', pyGet storeC4 k = some r → pyGet storeC4stamped k = some r' → r' ≠ r →
      ∃ c ∈ rootChildrenOf storeC4 "A", ChildReach storeC4 c k) ∧
    pyGet storeC4stamped "A" = pyGet storeC4 "A" :=
  computeCategoryColumn_frame
    (show computeCategoryColumn storeC4 "A" true true = .ok (storeC4stamped, []) from rfl)
    (@rankedAcyclic_of_entries storeC4 rankC10 (by decide))

/-- Claim C3, counterexample: on input carrying a literal children tag, the
derived children list of A is ["Q", "B"], while the ids whose is_a list
contains A (in store order) are exactly ["B"]; the derivation appends to the
preexisting attribute instead of producing exactly the inverse of is_a. -/
theorem children_column_counterexample :
    parse_obo_format ["[Term]", "id: A", "children: Q", "[Term]", "id: B", "is_a: A"] =
      .ok [("A", [("id", Value.single "A"), ("children", Value.multi ["Q", "B"])]),
           ("B", [("id", Value.single "B"), ("is_a", Value.multi ["A"])])] ∧
    parseStanzas ["[Term]", "id: A", "children: Q", "[Term]", "id: B", "is_a: A"] =
      .ok { store := storeC3pre, currentStanzaType := some "Term",
            currentKey := some "B" } ∧
    derivedChildren storeC3pre "A" = ["B"] ∧
    pyGet (computeChildrenColumn storeC3pre).1 "A" =
      some [("id", Value.single "A"), ("children", Value.multi ["Q", "B"])] ∧
    (["Q", "B"] : List String) ≠ ["B"] := by
  exact ⟨by rfl, by rfl, by decide, by rfl, by decide⟩

/-- Claim C3, amended: provided no record carries a preexisting children
attribute, after children derivation every record's children attribute holds
exactly the ids of the records whose is_a list contains its key, in store
order, one entry per is_a occurrence, with dangling parents contributing
nothing; records with no declared children keep no children attribute. -/
theorem children_column_exact {store : OboStore}
    (hpre : ∀ kr ∈ store, pyGet kr.2 "children" = none) :
    keysOf (computeChildrenColumn store).1 = keysOf store ∧
    ∀ k r', pyGet (computeChildrenColumn store).1 k = some r' →
      pyGet r' "children" = (if derivedChildren store k = [] then none
        else some (.multi (derivedChildren store k))) := by
  obtain ⟨hkeys, -, hrec⟩ := computeChildrenColumn_spec store
  refine ⟨hkeys, fun k r' h => ?_⟩
  obtain ⟨r, hr, -, hchild⟩ := hrec k r' h
  rw [hchild, hpre (k, r) (pyGet_mem hr)]
  rfl

/-- Witness for the amended claim C3 on a concrete store. -/
theorem children_column_exact_witness :
    keysOf (computeChildrenColumn storeC3plain).1 = keysOf storeC3plain ∧
    ∀ k r', pyGet (computeChildrenColumn storeC3plain).1 k = some r' →
      pyGet r' "children" = (if derivedChildren storeC3plain k = [] then none
        else some (.multi (derivedChildren storeC3plain k))) := by
  exact children_column_exact (by decide)

/-- Claim C8: a dangling parent reference is non-fatal: its warning is
logged, no record is materialized for the dangling id, every record keeps its
is_a list unchanged, and every record still receives all the children derived
from present parents. -/
theorem children_column_dangling {store : OboStore} {t p : String}
    (ht : t ∈ keysOf store) (hp : p ∈ parentsOf store t)
    (hdangling : p ∉ keysOf store) :
    danglingMsg t p ∈ (computeChildrenColumn store).2 ∧
    pyGet (computeChildrenColumn store).1 p = none ∧
    (∀ k r', pyGet (computeChildrenColumn store).1 k = some r' →
      ∃ r, pyGet store k = some r ∧ pyGet r' "is_a" = pyGet r "is_a" ∧
        pyGet r' "children" =
          combineChildren (pyGet r "children") (derivedChildren store k)) := by
  obtain ⟨hkeys, hwarn, hrec⟩ := computeChildrenColumn_spec store
  refine ⟨?_, ?_, ?_⟩
  · rw [hwarn]
    unfold danglingWarnings
    rw [List.mem_flatMap]
    refine ⟨t, ht, ?_⟩
    rw [List.mem_map]
    refine ⟨p, ?_, rfl⟩
    rw [List.mem_filter]
    refine ⟨hp, ?_⟩
    have : hasKey store p = false := by
      cases hb : hasKey store p
      · rfl
      · exact absurd ((hasKey_iff_mem_keysOf _ _).1 hb) hdangling
    simp [this]
  · apply pyGet_eq_none_of_not_mem
    rw [hkeys]
    exact hdangling
  · intro k r' h
    obtain ⟨r, hr, hframe, hchild⟩ := hrec k r' h
    exact ⟨r, hr, hframe "is_a" (by decide), hchild⟩

/-- Witness for claim C8 on a concrete store with a dangling parent. -/
theorem children_column_dangling_witness :
    danglingMsg "X" "Ghost" ∈ (computeChildrenColumn storeC8).2 ∧
    pyGet (computeChildrenColumn storeC8).1 "Ghost" = none ∧
    (∀ k r', pyGet (computeChildrenColumn storeC8).1 k = some r' →
      ∃ r, pyGet storeC8 k = some r ∧ pyGet r' "is_a" = pyGet r "is_a" ∧
        pyGet r' "children" =
          combineChildren (pyGet r "children") (derivedChildren storeC8 k)) :=
  children_column_dangling (by decide) (by decide) (by decide)

/-- A successful root walk follows first-parent links and ends at a record
with an absent or empty is_a list. -/
theorem computeRootAux_sound (store : OboStore) :
    ∀ (fuel : Nat) (start r : String),
      computeRootAux store fuel start = .ok (some r) →
      Relation.ReflTransGen (fun a b => firstParentOf store a = some b) start r ∧
      ∃ rec, pyGet store r = some rec ∧ getMulti rec "is_a" = [] := by
  intro fuel
  induction fuel with
  | zero => intro start r h; exact absurd h (by simp [computeRootAux])
  | succ f ih =>
      intro start r h
      simp only [computeRootAux] at h
      cases hg : pyGet store start with
      | none => rw [hg] at h; simp at h
      | some rec =>
          rw [hg] at h
          simp only [] at h
          cases hv : pyGet rec "is_a" with
          | none =>
              rw [hv] at h
              simp only [Except.ok.injEq, Option.some.injEq] at h
              subst h
              exact ⟨.refl, rec, hg, by simp [getMulti, hv]⟩
          | some v =>
              rw [hv] at h
              cases v with
              | single s =>
                  simp only [Except.ok.injEq, Option.some.injEq] at h
                  subst h
                  exact ⟨.refl, rec, hg, by simp [getMulti, hv]⟩
              | multi ps =>
                  cases ps with
                  | nil =>
                      simp only [Except.ok.injEq, Option.some.injEq] at h
                      subst h
                      exact ⟨.refl, rec, hg, by simp [getMulti, hv]⟩
                  | cons p rest =>
                      simp only [] at h
                      split at h
                      · obtain ⟨hreach, hroot⟩ := ih p r h
                        refine ⟨Relation.ReflTransGen.head ?_ hreach, hroot⟩
                        simp [firstParentOf, hg, hv]
                      · simp at h

/-- The root walk never exhausts its fuel when a rank function strictly
decreases along every first-parent link and bounds the start. -/
theorem computeRootAux_no_fuelout (store : OboStore) (rank : String → Nat)
    (hrank : ∀ kr ∈ store, ∀ b ∈ (firstParentOf store kr.1).toList, rank b < rank kr.1) :
    ∀ (fuel : Nat) (start : String), rank start < fuel →
      computeRootAux store fuel start ≠ .error .fuelOut := by
  intro fuel
  induction fuel with
  | zero => intro start hlt; omega
  | succ f ih =>
      intro start hlt
      simp only [computeRootAux]
      cases hg : pyGet store start with
      | none => simp
      | some rec =>
          simp only []
          cases hv : pyGet rec "is_a" with
          | none => simp
          | some v =>
              cases v with
              | single s => simp
              | multi ps =>
                  cases ps with
                  | nil => simp
                  | cons p rest =>
                      simp only []
                      split
                      · have hstep : firstParentOf store start = some p := by
                          simp [firstParentOf, hg, hv]
                        have hrankp : rank p < rank start :=
                          hrank (start, rec) (pyGet_mem hg) p (by simp [hstep])
                        exact ih p (by omega)
                      · simp

/-- Claim C6: the empty store resolves to no root; the example chain resolves
to Z; a successful walk follows first-parent links from the first key to a
record with absent or empty is_a; a missing first parent fails with a lookup
error; and the walk terminates whenever a rank function decreases along
first-parent links. -/
theorem compute_root_id_spec :
    computeRootId [] = .ok none ∧
    parse_obo_format linesC6 = .ok storeC6 ∧
    computeRootId storeC6 = .ok (some "Z") ∧
    (∀ (store : OboStore) (fuel : Nat) (start r : String),
      computeRootAux store fuel start = .ok (some r) →
      Relation.ReflTransGen (fun a b => firstParentOf store a = some b) start r ∧
      ∃ rec, pyGet store r = some rec ∧ getMulti rec "is_a" = []) ∧
    (∀ (store : OboStore) (fuel : Nat) (termId p : String) (rec : Record)
        (ps : List String),
      pyGet store termId = some rec → pyGet rec "is_a" = some (.multi (p :: ps)) →
      hasKey store p = false →
      computeRootAux store (fuel + 1) termId = .error (.idNotFound "parent id" p)) ∧
    (∀ (store : OboStore) (rank : String → Nat),
      (∀ kr ∈ store, ∀ b ∈ (firstParentOf store kr.1).toList, rank b < rank kr.1) →
      ∀ (fuel : Nat) (start : String), rank start < fuel →
        computeRootAux store fuel start ≠ .error .fuelOut) := by
  refine ⟨by rfl, by rfl, by rfl, computeRootAux_sound, ?_, computeRootAux_no_fuelout⟩
  intro store fuel termId p rec ps hg hv hkey
  simp only [computeRootAux, hg, hv]
  rw [if_neg (by simp [hkey])]

/-- Witness for claim C6: the general conjuncts applied on the example chain
and on a store with a dangling first parent. -/
theorem compute_root_id_spec_witness :
    (Relation.ReflTransGen (fun a b => firstParentOf storeC6 a = some b) "X" "Z" ∧
      ∃ rec, pyGet storeC6 "Z" = some rec ∧ getMulti rec "is_a" = []) ∧
    computeRootAux [("W", [("id", Value.single "W"), ("is_a", Value.multi ["Gone"])])] 1
      "W" = .error (.idNotFound "parent id" "Gone") ∧
    computeRootAux storeC6 4 "X" ≠ .error .fuelOut := by
  refine ⟨?_, ?_, ?_⟩
  · exact compute_root_id_spec.2.2.2.1 storeC6 4 "X" "Z" (by rfl)
  · exact compute_root_id_spec.2.2.2.2.1
      [("W", [("id", Value.single "W"), ("is_a", Value.multi ["Gone"])])] 0 "W" "Gone"
      [("id", Value.single "W"), ("is_a", Value.multi ["Gone"])] [] (by rfl) (by rfl)
      (by decide)
  · exact compute_root_id_spec.2.2.2.2.2 storeC6
      (fun s => if s = "X" then 3 else if s = "Y" then 2 else 1) (by decide) 4 "X"
      (by decide)

/-! ### Line-processing lemmas (claims C1 and C9) -/

theorem dropWhile_eq_self_of {p : Char → Bool} :
    ∀ {xs : List Char}, (∀ x ∈ xs, p x = false) → xs.dropWhile p = xs := by
  intro xs h
  cases xs with
  | nil => rfl
  | cons x xs =>
      rw [List.dropWhile_cons, h x (List.mem_cons_self _ _)]
      simp

theorem takeWhile_eq_self_of {p : Char → Bool} :
    ∀ {xs : List Char}, (∀ x ∈ xs, p x = true) → xs.takeWhile p = xs := by
  intro xs
  induction xs with
  | nil => intro h; rfl
  | cons x xs ih =>
      intro h
      rw [List.takeWhile_cons, h x (List.mem_cons_self _ _)]
      simp only [if_true]
      rw [ih (fun y hy => h y (List.mem_cons_of_mem _ hy))]

theorem dropWhile_append_of_neg {p : Char → Bool} {y : Char} (hy : p y = false) :
    ∀ (xs ys : List Char), (xs ++ y :: ys).dropWhile p = xs.dropWhile p ++ y :: ys := by
  intro xs ys
  induction xs with
  | nil => simp [List.dropWhile_cons, hy]
  | cons x xs ih =>
      rw [List.cons_append, List.dropWhile_cons, List.dropWhile_cons]
      cases hx : p x
      · simp
      · simp only [if_true]
        exact ih

theorem takeWhile_append_of {p : Char → Bool} {y : Char} (hy : p y = false) :
    ∀ (xs ys : List Char), (∀ x ∈ xs, p x = true) →
      (xs ++ y :: ys).takeWhile p = xs := by
  intro xs ys
  induction xs with
  | nil => intro h; simp [List.takeWhile_cons, hy]
  | cons x xs ih =>
      intro h
      rw [List.cons_append, List.takeWhile_cons, h x (List.mem_cons_self _ _)]
      simp only [if_true]
      rw [ih (fun z hz => h z (List.mem_cons_of_mem _ hz))]

/-- Core list computation of comment stripping: drop the trailing newlines,
then take the text strictly before the first exclamation mark. -/
theorem comment_strip_core (A B : List Char) (hA : '!' ∉ A) :
    (((A ++ '!' :: B).reverse.dropWhile (· = '\n')).reverse).takeWhile (· ≠ '!') = A := by
  rw [List.reverse_append, List.reverse_cons, List.append_assoc, List.singleton_append]
  rw [dropWhile_append_of_neg (by decide) B.reverse A.reverse]
  rw [List.reverse_append, List.reverse_cons, List.reverse_reverse]
  rw [List.append_assoc, List.singleton_append]
  refine takeWhile_append_of (by decide) _ _ ?_
  intro x hx
  simp only [decide_eq_true_eq]
  intro hx'
  subst hx'
  exact hA hx

/-- Stripping the newline and the comment from a comment-carrying line
recovers exactly the text before the exclamation mark, whether or not the
character before the mark is a backslash. -/
theorem stripComment_rstrip_append (l c : String) (hnb : '!' ∉ l.data) :
    stripComment (rstripNewline (l ++ "!" ++ c)) = l := by
  show String.mk ((((l ++ "!" ++ c).data.reverse.dropWhile (· = '\n')).reverse).takeWhile
    (· ≠ '!')) = l
  rw [show (l ++ "!" ++ c).data = l.data ++ '!' :: c.data from by
    simp [String.data_append]]
  rw [comment_strip_core l.data c.data hnb]

/-- A line with no newline and no exclamation mark is untouched by the
newline and comment stripping. -/
theorem stripComment_rstrip_self (l : String) (hnl : '\n' ∉ l.data) (hnb : '!' ∉ l.data) :
    stripComment (rstripNewline l) = l := by
  show String.mk ((l.data.reverse.dropWhile (· = '\n')).reverse.takeWhile (· ≠ '!')) = l
  rw [dropWhile_eq_self_of (fun x hx => by
    simp only [decide_eq_true_eq, decide_eq_false_iff_not]
    intro hx'
    subst hx'
    exact hnl (List.mem_reverse.1 hx))]
  rw [List.reverse_reverse]
  rw [takeWhile_eq_self_of (fun x hx => by
    simp only [decide_eq_true_eq]
    intro hx'
    subst hx'
    exact hnb hx)]

theorem head_append_ne_bracket (l c : String) (hhead : l.data.head? ≠ some '[') :
    (l ++ "!" ++ c).data.head? ≠ some '[' := by
  rw [show (l ++ "!" ++ c).data = l.data ++ '!' :: c.data from by simp [String.data_append]]
  cases hl : l.data with
  | nil => simp
  | cons a t =>
      rw [hl] at hhead
      simpa using hhead

/-- Claim C9, counterexample: a backslash does not protect the exclamation
mark; the comment split happens at the first exclamation mark regardless, so
the stored name is the text up to the backslash. -/
theorem comment_escape_counterexample :
    parse_obo_format ["[Term]", "id: A", "name: x\\!y"] =
      .ok [("A", [("id", Value.single "A"), ("name", Value.single "x\\")])] ∧
    ("x\\" : String) ≠ "x\\!y" ∧ ("x\\" : String) ≠ "x!y" := by
  refine ⟨by rfl, by decide, by decide⟩

/-- Claim C9, amended: on a tag line, the text from the first exclamation
mark on is dropped together with the mark itself, regardless of any
escaping, and the remaining value is whitespace-trimmed; appending a comment
to an exclamation-free non-header line never changes the parse, and the
spec example line yields the single trimmed is_a value. -/
theorem comment_stripping_spec :
    (∀ (st : ParseState) (l c : String),
      '\n' ∉ l.data → '!' ∉ l.data → l.data.head? ≠ some '[' →
      parseLine st (l ++ "!" ++ c) = parseLine st l) ∧
    parse_obo_format
      ["[Term]", "id: HP:0000480", "name: Retinal coloboma",
       "is_a: HP:0000479 ! Abnormality of the retina"] =
      .ok [("HP:0000480",
        [("id", Value.single "HP:0000480"),
         ("name", Value.single "Retinal coloboma"),
         ("is_a", Value.multi ["HP:0000479"])])] := by
  refine ⟨?_, by rfl⟩
  intro st l c hnl hnb hhead
  unfold parseLine
  rw [if_neg (head_append_ne_bracket l c hhead), if_neg hhead]
  by_cases hst : st.currentStanzaType ≠ some "Term"
  · rw [if_pos hst, if_pos hst]
  · rw [if_neg hst, if_neg hst]
    rw [stripComment_rstrip_append l c hnb, stripComment_rstrip_self l hnl hnb]

/-- Witness for the amended claim C9 on a concrete line and state. -/
theorem comment_stripping_spec_witness :
    parseLine { store := [("A", [("id", Value.single "A")])],
                currentStanzaType := some "Term", currentKey := some "A" }
        ("is_a: HP:0000479 " ++ "!" ++ " Abnormality of the retina") =
      parseLine { store := [("A", [("id", Value.single "A")])],
                  currentStanzaType := some "Term", currentKey := some "A" }
        "is_a: HP:0000479 " :=
  comment_stripping_spec.1 _ "is_a: HP:0000479 " " Abnormality of the retina"
    (by decide) (by decide) (by decide)

/-- Claim C1, counterexample: a [Term] stanza containing two id lines does
not fail; the second id line simply starts a fresh current record (re-keying
the store entry when the value repeats). -/
theorem duplicate_id_counterexample :
    parse_obo_format ["[Term]", "id: A", "id: A"] =
      .ok [("A", [("id", Value.single "A")])] ∧
    parse_obo_format ["[Term]", "id: A", "name: n1", "id: B"] =
      .ok [("A", [("id", Value.single "A"), ("name", Value.single "n1")]),
           ("B", [("id", Value.single "B")])] :=
  ⟨rfl, rfl⟩

/-- An id line never raises the duplicate-tag error: the fresh record created
for the id value has no id attribute when the duplicate check runs. -/
theorem parseLine_no_duplicate_id (st : ParseState) (line : String) :
    parseLine st line ≠ .error (.duplicateTag "id") := by
  intro h
  unfold parseLine at h
  simp only [] at h
  split at h
  · simp at h
  · split at h
    · simp at h
    · split at h
      · simp at h
      · split at h
        · simp at h
        · rename_i tagval tag rawValue heqmatch
          by_cases htag : tag = "id"
          · subst htag
            simp only [if_true] at h
            rw [pyGet_setItem_self] at h
            simp only [show ("id" ∈ ONLY_ONE_ALLOWED_PER_STANZA) = True by
                simp [ONLY_ONE_ALLOWED_PER_STANZA],
              show hasKey ([] : Record) "id" = false from rfl, if_true,
              Bool.false_eq_true, if_false] at h
            simp at h
          · simp only [if_neg htag] at h
            split at h
            · simp at h
            · split at h
              · simp at h
              · split at h
                · split at h
                  · simp only [Except.error.injEq, OboErr.duplicateTag.injEq] at h
                    exact htag h
                  · simp at h
                · simp at h

theorem parseFold_no_duplicate_id :
    ∀ (lines : List String) (st0 : ParseState),
      List.foldlM parseLine st0 lines ≠ .error (.duplicateTag "id") := by
  intro lines
  induction lines with
  | nil => intro st0 h; simp [List.foldlM_nil, pure, Except.pure] at h
  | cons l ls ih =>
      intro st0 h
      rw [List.foldlM_cons] at h
      cases hp : parseLine st0 l with
      | error e =>
          rw [hp] at h
          simp only [Bind.bind, Except.bind, Except.error.injEq] at h
          subst h
          exact parseLine_no_duplicate_id st0 l hp
      | ok st1 =>
          rw [hp] at h
          simp only [Bind.bind, Except.bind] at h
          exact ih st1 h

theorem parseStanzas_append_error :
    ∀ (l1 : List String) (st0 : ParseState) (l2 : List String) (e : OboErr),
      List.foldlM parseLine st0 l1 = .error e →
      List.foldlM parseLine st0 (l1 ++ l2) = .error e := by
  intro l1
  induction l1 with
  | nil => intro st0 l2 e h; simp [List.foldlM_nil, pure, Except.pure] at h
  | cons l ls ih =>
      intro st0 l2 e h
      rw [List.foldlM_cons] at h
      rw [List.cons_append, List.foldlM_cons]
      cases hp : parseLine st0 l with
      | error e' =>
          rw [hp] at h
          simp only [Bind.bind, Except.bind, Except.error.injEq] at h
          subst h
          rfl
      | ok st1 =>
          rw [hp] at h
          simp only [Bind.bind, Except.bind] at h ⊢
          exact ih st1 l2 e h

/-- Claim C1, amended: a repeated id line never raises the duplicate-tag
error (neither at line level nor for a whole parse); repeating name, def or
comment while the current record already holds that tag raises the
duplicate-tag error; and an error while folding a prefix of the lines aborts
the whole parse with that error, so no store is returned. -/
theorem duplicate_tag_spec :
    (∀ (st : ParseState) (line : String),
      parseLine st line ≠ .error (.duplicateTag "id")) ∧
    (∀ lines : List String, parse_obo_format lines ≠ .error (.duplicateTag "id")) ∧
    (∀ (st : ParseState) (line tag rawValue k : String) (rec : Record),
      line.data.head? ≠ some '[' →
      st.currentStanzaType = some "Term" →
      (stripComment (rstripNewline line)).data.isEmpty = false →
      matchTagValue (stripComment (rstripNewline line)) = some (tag, rawValue) →
      tag ≠ "id" → tag ∈ ONLY_ONE_ALLOWED_PER_STANZA →
      st.currentKey = some k → pyGet st.store k = some rec → hasKey rec tag = true →
      parseLine st line = .error (.duplicateTag tag)) ∧
    (∀ (lines1 lines2 : List String) (e : OboErr),
      parseStanzas lines1 = .error e →
      parse_obo_format (lines1 ++ lines2) = .error e) := by
  refine ⟨parseLine_no_duplicate_id, ?_, ?_, ?_⟩
  · intro lines h
    unfold parse_obo_format at h
    cases hp : parseStanzas lines with
    | error e =>
        rw [hp] at h
        simp only [Except.map, Except.error.injEq] at h
        subst h
        exact parseFold_no_duplicate_id lines initParseState hp
    | ok st => rw [hp] at h; simp [Except.map] at h
  · intro st line tag rawValue k rec hhead hstanza hnonempty hmatch htag hmem hkey hrec hdup
    unfold parseLine
    rw [if_neg hhead, if_neg (by simp [hstanza])]
    rw [if_neg (by simp [hnonempty]), hmatch]
    simp only [if_neg htag]
    rw [hkey]
    simp only []
    rw [hrec]
    simp only []
    rw [if_pos hmem, if_pos hdup]
  · intro lines1 lines2 e h
    unfold parse_obo_format
    rw [show parseStanzas (lines1 ++ lines2) = .error e from
      parseStanzas_append_error lines1 initParseState lines2 e h]
    rfl

/-- Witness for the amended claim C1: a repeated name raises the
duplicate-tag error at a concrete state, and the error aborts a concrete
parse. -/
theorem duplicate_tag_spec_witness :
    parseLine { store := [("A", [("id", Value.single "A"),
                  ("name", Value.single "n1")])],
                currentStanzaType := some "Term", currentKey := some "A" }
        "name: n2" = .error (.duplicateTag "name") ∧
    parse_obo_format (["[Term]", "id: A", "name: n1", "name: n2"] ++ ["id: B"]) =
      .error (.duplicateTag "name") := by
  constructor
  · exact duplicate_tag_spec.2.2.1
      { store := [("A", [("id", Value.single "A"), ("name", Value.single "n1")])],
        currentStanzaType := some "Term", currentKey := some "A" }
      "name: n2" "name" " n2" "A"
      [("id", Value.single "A"), ("name", Value.single "n1")]
      (by decide) (by rfl) (by rfl) (by rfl) (by decide)
      (by decide) (by rfl) (by rfl) (by rfl)
  · exact duplicate_tag_spec.2.2.2 ["[Term]", "id: A", "name: n1", "name: n2"] ["id: B"]
      (.duplicateTag "name") (by rfl)

end OboSpec
